import Mathlib

/-!
Verification of the Saarthi mutual-fund data scripts.

This file shallowly embeds the two cores of the repository:

* the Feed Parser of `saarthi/scripts/fetch-fund-data-CLEAN.py`
  (`FundDataFetcher.fetch_amfi_nav_data`, `clean_fund_name`,
  `determine_category`), and
* the Return Enricher of `saarthi/scripts/enrich-with-mfapi.py`
  (`MFApiEnricher.calculate_returns` with its inner `get_nav_n_days_ago`,
  the batch loop of `enrich_funds`, `save_progress`, `save_final`,
  `resume_from_progress`).

Python strings are modelled as `List Char`; Python floats are modelled with
exact rational arithmetic (`ℚ`); `datetime` values are modelled by their
proleptic-Gregorian day number (an integer); fallible operations return
`Option`.  Network and file I/O are abstracted into explicit parameters
(the fetched feed is a list of lines, the per-fund time-series fetch is a
function argument, file writes are recorded in an event log field).
-/

namespace Saarthi

/-- Whitespace characters of Python's `str.split` / `str.strip` and of the
regex class `\s`, restricted to the ASCII range (the feed is ASCII). -/
def isWs (c : Char) : Bool :=
  c = ' ' || c = '\t' || c = '\n' || c = '\r' || c = '\x0b' || c = '\x0c'

/-- ASCII lower-casing, the fragment of Python's `str.lower` and of
`re.IGNORECASE` folding needed for the ASCII literals of the scripts. -/
def toLowerAscii (c : Char) : Char :=
  if 'A' ≤ c ∧ c ≤ 'Z' then Char.ofNat (c.toNat + 32) else c

/-- Python `s.strip()`: drop leading and trailing whitespace. -/
def pyStrip (s : List Char) : List Char :=
  ((s.dropWhile isWs).reverse.dropWhile isWs).reverse

/-- Python `s.split(sep)` for a one-character separator: always returns at
least one (possibly empty) field. -/
def splitSep (sep : Char) : List Char → List (List Char)
  | [] => [[]]
  | c :: cs =>
    if c = sep then [] :: splitSep sep cs
    else
      match splitSep sep cs with
      | [] => [[c]]
      | t :: ts => (c :: t) :: ts

theorem dropWhile_len_le {α : Type} (p : α → Bool) (l : List α) :
    (l.dropWhile p).length ≤ l.length := by
  induction l with
  | nil => simp
  | cons a l ih =>
    by_cases h : p a
    · simp only [List.dropWhile, h]
      exact Nat.le_succ_of_le ih
    · simp only [List.dropWhile, h]
      exact Nat.le_refl _

/-- Worker for `pySplit`, accumulating the current word in reverse. -/
def pySplitGo (acc : List Char) : List Char → List (List Char)
  | [] => if acc = [] then [] else [acc.reverse]
  | c :: cs =>
    if isWs c then
      if acc = [] then pySplitGo [] cs
      else acc.reverse :: pySplitGo [] cs
    else pySplitGo (c :: acc) cs

/-- Python `s.split()` (no argument): the maximal whitespace-free words,
in order, empty runs discarded. -/
def pySplit (s : List Char) : List (List Char) :=
  pySplitGo [] s

theorem pySplit_nil : pySplit [] = [] := rfl

theorem pySplit_ws (c : Char) (cs : List Char) (h : isWs c = true) :
    pySplit (c :: cs) = pySplit cs := by
  simp [pySplit, pySplitGo, h]

theorem pySplitGo_acc (cs : List Char) : ∀ acc : List Char, acc ≠ [] →
    pySplitGo acc cs =
      (acc.reverse ++ cs.takeWhile (fun d => ¬ isWs d)) ::
        pySplit (cs.dropWhile (fun d => ¬ isWs d)) := by
  induction cs with
  | nil => intro acc hacc; simp [pySplitGo, hacc, pySplit]
  | cons d ds ih =>
    intro acc hacc
    by_cases hd : isWs d
    · simp only [pySplitGo, hd, if_true, if_neg hacc]
      simp only [List.takeWhile_cons, List.dropWhile_cons, hd, pySplit_ws d ds hd,
        Bool.not_true, decide_eq_true_eq]
      simp [pySplit, pySplitGo, hd]
    · simp only [pySplitGo, hd, if_false]
      rw [ih (d :: acc) (by simp)]
      simp [List.takeWhile_cons, List.dropWhile_cons, hd]

/-- Unfolding of `pySplit` at a non-whitespace head: the first word is the
maximal non-whitespace run and splitting continues after it. -/
theorem pySplit_word (c : Char) (cs : List Char) (h : ¬ isWs c = true) :
    pySplit (c :: cs) =
      (c :: cs.takeWhile (fun d => ¬ isWs d)) ::
        pySplit (cs.dropWhile (fun d => ¬ isWs d)) := by
  show pySplitGo [] (c :: cs) = _
  simp only [pySplitGo, h, if_false]
  rw [pySplitGo_acc cs [c] (by simp)]
  rfl

/-- Python `' '.join(words)` composed after `split`: collapse whitespace. -/
def wsCollapse (s : List Char) : List Char :=
  List.intercalate [' '] (pySplit s)

/-- Case-insensitive comparison of a (lower-case, whitespace-free) pattern
against the start of a string, per `re.IGNORECASE` on ASCII. -/
def ciPref : List Char → List Char → Bool
  | [], _ => true
  | _ :: _, [] => false
  | p :: ps, c :: cs => toLowerAscii c = p && ciPref ps cs

/-- Attempt to match the Python regex `\s*-\s*TOK.*$` (with `re.IGNORECASE`)
anchored at the start of `s`, where `TOK` is the lower-cased literal token.
Following Python `re` semantics, `.` does not match a newline and `$`
matches at the end of the string or just before a final newline.  On
success, returns the part of `s` after the match (either `[]` or a final
newline). -/
def hyphenMatch (tok : List Char) (s : List Char) : Option (List Char) :=
  match s.dropWhile isWs with
  | [] => none
  | c :: r =>
    if c = '-' then
      let r2 := r.dropWhile isWs
      if ciPref tok r2 then
        let rest := (r2.drop tok.length).dropWhile (fun x => x ≠ '\n')
        if rest = [] then some []
        else if rest = ['\n'] then some ['\n']
        else none
      else none
    else none

/-- Python `re.sub(r'\s*-\s*TOK.*$', '', s, flags=re.IGNORECASE)`: remove
the leftmost match (matches of this pattern always extend to the end of
the string, bar a final newline, so there is at most one). -/
def subTok (tok : List Char) : List Char → List Char
  | [] => []
  | c :: cs =>
    match hyphenMatch tok (c :: cs) with
    | some rem => rem
    | none => c :: subTok tok cs

/-- The `FundDataFetcher.clean_fund_name` method: strip a trailing
hyphen-introduced Direct/Regular/Growth clause (each substitution is
performed twice in the source, the upper-case duplicates being redundant
under `re.IGNORECASE`), collapse whitespace, and strip. -/
def clean_fund_name (s : List Char) : List Char :=
  let s1 := subTok "direct".toList s
  let s2 := subTok "direct".toList s1
  let s3 := subTok "regular".toList s2
  let s4 := subTok "regular".toList s3
  let s5 := subTok "growth".toList s4
  let s6 := subTok "growth".toList s5
  pyStrip (wsCollapse s6)

/-- Exact substring containment, Python's `pat in hay`. -/
def containsSub (hay pat : List Char) : Bool :=
  hay.tails.any (fun t => pat.isPrefixOf t)

/-- The `FundDataFetcher.determine_category` method of
`fetch-fund-data-CLEAN.py`: the 13-rule first-match-wins substring table
over the lower-cased argument. -/
def determine_category (fund_name : List Char) : String :=
  let n := fund_name.map toLowerAscii
  let has := fun (p : String) => containsSub n p.toList
  if has "elss" || has "tax saver" then "Equity - ELSS"
  else if has "flexi cap" then "Equity - Flexi Cap"
  else if has "large cap" || has "bluechip" || has "blue chip" then "Equity - Large Cap"
  else if has "mid cap" || has "midcap" then "Equity - Mid Cap"
  else if has "small cap" || has "smallcap" then "Equity - Small Cap"
  else if has "index" then "Equity - Index"
  else if has "fof" || has "fund of funds" then "Fund of Funds"
  else if has "liquid" then "Debt - Liquid"
  else if has "balanced" || has "hybrid" || has "advantage" then "Hybrid"
  else if has "debt" || has "bond" then "Debt"
  else if has "money market" then "Debt - Money Market"
  else if (["infrastructure", "banking", "technology", "healthcare", "defence",
            "psu", "manufacturing", "pharma", "auto", "energy"] : List String).any
            (fun p => containsSub n p.toList) then "Equity - Sectoral"
  else "Other"

/-- Digit run to number, `int` of a digit string. -/
def parseDigits (s : List Char) : ℕ :=
  s.foldl (fun a c => 10 * a + (c.toNat - '0'.toNat)) 0

/-- Split a string into its leading digit run and the rest. -/
def spanDigits (s : List Char) : List Char × List Char :=
  (s.takeWhile Char.isDigit, s.dropWhile Char.isDigit)

/-- Python `float(s)` on the decimal grammar
`[ws] [sign] digits [. digits] [(e|E) [sign] digits] [ws]`, evaluated
exactly in `ℚ` (the scripts' NAV strings are plain decimals; the special
forms `inf`, `nan` and underscore separators are outside the model).  The
value `sign * (intpart.fracpart) * 10^(±exp)` is built through `mkRat` on
integer arithmetic so that it evaluates by kernel reduction. -/
def parsePyFloat (s : List Char) : Option ℚ :=
  let t := pyStrip s
  let sgnAndRest : ℤ × List Char :=
    match t with
    | '+' :: r => (1, r)
    | '-' :: r => (-1, r)
    | _ => (1, t)
  let sgn := sgnAndRest.1
  let (ip, r1) := spanDigits sgnAndRest.2
  let fpAndRest : List Char × List Char :=
    match r1 with
    | '.' :: r => spanDigits r
    | _ => ([], r1)
  let fp := fpAndRest.1
  let r2 := fpAndRest.2
  if ip = [] ∧ fp = [] then none
  else
    let num : ℤ := sgn * ((parseDigits ip * 10 ^ fp.length + parseDigits fp : ℕ) : ℤ)
    let den : ℕ := 10 ^ fp.length
    match r2 with
    | [] => some (mkRat num den)
    | e :: r3 =>
      if e = 'e' ∨ e = 'E' then
        let eAndRest : Bool × List Char :=
          match r3 with
          | '+' :: r => (false, r)
          | '-' :: r => (true, r)
          | _ => (false, r3)
        let (ed, r4) := spanDigits eAndRest.2
        if ed ≠ [] ∧ r4 = [] then
          some (if eAndRest.1 then mkRat num (den * 10 ^ parseDigits ed)
                else mkRat (num * ((10 ^ parseDigits ed : ℕ) : ℤ)) den)
        else none
      else none

/-- Gregorian leap-year rule. -/
def isLeap (y : ℕ) : Bool :=
  (y % 4 = 0 && y % 100 ≠ 0) || y % 400 = 0

/-- Length of a month. -/
def daysInMonth (y m : ℕ) : ℕ :=
  if m = 2 then (if isLeap y then 29 else 28)
  else if m = 4 || m = 6 || m = 9 || m = 11 then 30
  else 31

/-- Days in year `y` strictly before month `m`. -/
def daysBeforeMonth (y m : ℕ) : ℕ :=
  (List.range (m - 1)).foldl (fun a i => a + daysInMonth y (i + 1)) 0

/-- Proleptic-Gregorian day number of a calendar date (1-1-1 is day 1);
this is the order-embedding under which `datetime` comparisons of midnight
timestamps are compared in the model. -/
def toDayNumber (y m d : ℕ) : ℕ :=
  365 * (y - 1) + ((y - 1) / 4 - (y - 1) / 100 + (y - 1) / 400) + daysBeforeMonth y m + d

/-- Python `datetime.strptime(s, '%d-%m-%Y')`, returning the day number of
the parsed date: one or two digit day and month, exactly four digit year,
separated by literal hyphens, with `datetime`'s range validation. -/
def parseDate (s : List Char) : Option ℤ :=
  match splitSep '-' s with
  | [ds, ms, ys] =>
    if ds.all Char.isDigit && ms.all Char.isDigit && ys.all Char.isDigit
        && (ds.length = 1 || ds.length = 2) && (ms.length = 1 || ms.length = 2)
        && ys.length = 4 then
      let d := parseDigits ds
      let m := parseDigits ms
      let y := parseDigits ys
      if 1 ≤ y && 1 ≤ m && m ≤ 12 && 1 ≤ d && d ≤ daysInMonth y m then
        some (toDayNumber y m d : ℤ)
      else none
    else none
  | _ => none

/-- One row of the output catalog, as built by `fetch_amfi_nav_data`
(the constant `source`, `last_updated`, `returns` and `benchmark`
initializers carry no per-record information and are omitted). -/
structure FundRecord where
  name : List Char
  amc : Option (List Char)
  scheme_code : List Char
  nav : Option ℚ
  nav_date : List Char
  category : String
deriving DecidableEq

/-- Mutable state of the `fetch_amfi_nav_data` loop: the insertion-ordered
catalog (a Python dict keyed by cleaned name) and the current AMC header. -/
structure ParserState where
  funds : List (List Char × FundRecord)
  current_amc : Option (List Char)
deriving DecidableEq

/-- The empty initial parser state. -/
def initParser : ParserState := ⟨[], none⟩

/-- The body of the `for line in lines` loop of
`FundDataFetcher.fetch_amfi_nav_data`: strip the line; a non-empty line
not starting with a digit sets the current AMC; otherwise a line
containing `;` is split, and if it has at least 6 fields with non-empty
name (index 3) and code (index 0), a record built from fields 0, 3, 4, 5
is inserted under the cleaned name unless that key is already present. -/
def processLine (st : ParserState) (rawLine : List Char) : ParserState :=
  let line := pyStrip rawLine
  if line ≠ [] ∧ ¬ (line.headD ' ').isDigit then
    { st with current_amc := some line }
  else if line.contains ';' then
    let parts := splitSep ';' line
    if 6 ≤ parts.length then
      let scheme_code := pyStrip (parts.getD 0 [])
      let scheme_name := pyStrip (parts.getD 3 [])
      let nav_str := pyStrip (parts.getD 4 [])
      let nav_date := pyStrip (parts.getD 5 [])
      if scheme_name = [] ∨ scheme_code = [] then st
      else
        let clean_name := clean_fund_name scheme_name
        let nav : Option ℚ := if nav_str = [] then none else parsePyFloat nav_str
        if (st.funds.lookup clean_name).isNone then
          { st with funds := st.funds ++
              [(clean_name,
                { name := scheme_name
                  amc := st.current_amc
                  scheme_code := scheme_code
                  nav := nav
                  nav_date := nav_date
                  category := determine_category scheme_name })] }
        else st
    else st
  else st

/-- The whole parsing pass over the downloaded feed text, already split
into lines. -/
def processFeed (lines : List (List Char)) : ParserState :=
  lines.foldl processLine initParser

/-- Round-half-to-even of a rational to an integer, the rounding mode of
Python's builtin `round`; the NAV arithmetic of the scripts is modelled
exactly over `ℚ`.  Writing `q = ⌊q⌋ + r` with `0 ≤ r < 1`, the integer
`r2 = 2 * (q.num - ⌊q⌋ * q.den)` equals `2 * r * q.den`, so comparing `r2`
with `q.den` compares the fractional part `r` with `1/2` in kernel-reducible
integer arithmetic. -/
def roundHalfEven (q : ℚ) : ℤ :=
  let f := ⌊q⌋
  let r2 : ℤ := 2 * (q.num - f * q.den)
  if r2 < q.den then f
  else if (q.den : ℤ) < r2 then f + 1
  else if f % 2 = 0 then f else f + 1

/-- Python `round(x, 2)`: `Rat.divInt (q.num * 100) q.den` is `q * 100`
(see `divInt_num_mul_100`), so this is round-half-even of `q * 100`,
divided by 100. -/
def round2 (q : ℚ) : ℚ :=
  Rat.divInt (roundHalfEven (Rat.divInt (q.num * 100) q.den)) 100

theorem divInt_num_mul_100 (q : ℚ) : Rat.divInt (q.num * 100) q.den = q * 100 := by
  rw [Rat.divInt_eq_div]
  push_cast
  rw [mul_comm, mul_div_assoc, Rat.num_div_den, mul_comm]

theorem round2_eq (q : ℚ) :
    round2 q = (roundHalfEven (q * 100) : ℚ) / 100 := by
  rw [round2, divInt_num_mul_100, Rat.divInt_eq_div]
  norm_num

/-- The percentage change `((current - past) / past) * 100` of the source,
written as a single `Rat.divInt` over integer arithmetic so that it
evaluates by kernel reduction; `pctChange_eq` proves it equal to the
formula (both sides are 0 when `past` is 0, a case the caller guards). -/
def pctChange (current past : ℚ) : ℚ :=
  Rat.divInt ((current.num * past.den - past.num * current.den) * 100)
    (current.den * past.num)

theorem pctChange_eq (current past : ℚ) :
    pctChange current past = (current - past) / past * 100 := by
  rcases eq_or_ne past 0 with hp | hp
  · subst hp
    simp [pctChange, Rat.divInt_eq_div]
  · have hpn : (past.num : ℚ) ≠ 0 := by
      exact_mod_cast Rat.num_ne_zero.mpr hp
    have hcd : ((current.den : ℚ)) ≠ 0 := by
      exact_mod_cast current.den_nz
    have hpd : ((past.den : ℚ)) ≠ 0 := by
      exact_mod_cast past.den_nz
    have hc := (div_eq_iff hcd).mp (Rat.num_div_den current)
    have hp4 := (div_eq_iff hpd).mp (Rat.num_div_den past)
    rw [pctChange, Rat.divInt_eq_div]
    push_cast
    rw [div_mul_eq_mul_div, div_eq_div_iff (mul_ne_zero hcd hpn) hp]
    rw [hc, hp4]
    ring

/-- One point of the externally fetched NAV time series, a JSON object
with textual `date` (day-month-year) and `nav` fields. -/
structure NavEntry where
  date : List Char
  nav : List Char
deriving DecidableEq

/-- The helper closure `get_nav_n_days_ago` of
`MFApiEnricher.calculate_returns`: scan the series in the given order and
return the float value of the first point whose date parses and is at or
before `now - days`; a point whose date fails to parse, or whose NAV
string fails to parse once the date test has passed, raises inside the
per-point `try` and the loop continues.  `now` is the day number of
`datetime.now()`; since the wall-clock time of day is non-negative, a
midnight timestamp is `<=` the target instant exactly when its day number
is at most `now - days`. -/
def get_nav_n_days_ago (now days : ℤ) : List NavEntry → Option ℚ
  | [] => none
  | e :: rest =>
    match parseDate e.date with
    | none => get_nav_n_days_ago now days rest
    | some d =>
      if d ≤ now - days then
        match parsePyFloat e.nav with
        | some v => some v
        | none => get_nav_n_days_ago now days rest
      else get_nav_n_days_ago now days rest

/-- The three trailing returns attached to an enriched record
(dictionary keys `1year`, `3year`, `5year`). -/
structure Returns where
  y1 : Option ℚ
  y3 : Option ℚ
  y5 : Option ℚ
deriving DecidableEq

/-- One horizon of `calculate_returns`: the statement
`if nav_ny: returns[hor] = round(((current_nav - nav_ny) / nav_ny) * 100, 2)`,
where a missing past NAV and a zero past NAV (falsy float) both leave the
horizon absent. -/
def horizonReturn (current : ℚ) : Option ℚ → Option ℚ
  | some p => if p ≠ 0 then some (round2 (pctChange current p)) else none
  | none => none

/-- The `MFApiEnricher.calculate_returns` method: `None` for a series of
fewer than two points and whenever the head NAV string fails to parse
(the `ValueError` is caught by the enclosing `try`); otherwise the three
horizon returns over 365, 1095 and 1825 days. -/
def calculate_returns (now : ℤ) (nav_history : List NavEntry) : Option Returns :=
  if nav_history.length < 2 then none
  else
    match nav_history with
    | [] => none
    | h :: _ =>
      match parsePyFloat h.nav with
      | none => none
      | some current =>
        some { y1 := horizonReturn current (get_nav_n_days_ago now 365 nav_history)
               y3 := horizonReturn current (get_nav_n_days_ago now 1095 nav_history)
               y5 := horizonReturn current (get_nav_n_days_ago now 1825 nav_history) }

/-- The per-fund slice of the catalog consumed by the enricher:
`fund_info['name']`, `fund_info.get('scheme_code')` and the mutable
`returns` slot. -/
structure FundInfo where
  name : List Char
  scheme_code : Option (List Char)
  returns : Option Returns
deriving DecidableEq

/-- The `enrichment_progress` object written by `save_progress`:
`last_index` (the next index to process) and the two counters. -/
structure Checkpoint where
  last_index : ℕ
  successful : ℕ
  failed : ℕ
deriving DecidableEq

/-- The `enrichment_stats` object written by `save_final`. -/
structure Stats where
  total_funds : ℕ
  enriched : ℕ
  failed : ℕ
deriving DecidableEq

/-- State of an enrichment run: the instance counters `self.successful`
and `self.failed`, the catalog `data['funds']`, the transient
`enrichment_progress` and final `enrichment_complete`/`enrichment_stats`
fields of `data`, a log of every checkpoint file write performed by
`save_progress`, and a log of the processed fund indices. -/
structure EnrichState where
  successful : ℕ
  failed : ℕ
  funds : List (List Char × FundInfo)
  progress : Option Checkpoint
  stats : Option Stats
  complete : Bool
  saves : List Checkpoint
  processed : List ℕ
deriving DecidableEq

/-- Initial state of a run over a catalog snapshot with given starting
counters. -/
def initEnrich (snapshot : List (List Char × FundInfo)) (successful failed : ℕ) :
    EnrichState :=
  ⟨successful, failed, snapshot, none, none, false, [], []⟩

/-- The enrichment outcome of one fund: `some returns` exactly on the
success path of the loop body (`scheme_code` truthy, the fetch returns a
non-empty series, and `calculate_returns` yields a result); `none` on each
of the three `failed` branches.  `env` abstracts
`get_fund_data_from_mfapi`, which returns `None` both on transport errors
and on an absent or empty `data` field. -/
def fundOutcome (env : List Char → Option (List NavEntry)) (now : ℤ)
    (info : FundInfo) : Option Returns :=
  match info.scheme_code with
  | none => none
  | some sc =>
    if sc = [] then none
    else
      match env sc with
      | none => none
      | some hist => calculate_returns now hist

/-- Boolean success test for one fund. -/
def isSuccess (env : List Char → Option (List NavEntry)) (now : ℤ)
    (info : FundInfo) : Bool :=
  (fundOutcome env now info).isSome

/-- The body of the `for i in range(start_from, total_funds)` loop of
`enrich_funds` for index `i`, checkpointing aside: on failure increment
`failed`; on success increment `successful` and store the returns into
the catalog under the fund key. -/
def stepFund (env : List Char → Option (List NavEntry)) (now : ℤ)
    (snapshot : List (List Char × FundInfo)) (i : ℕ) (st : EnrichState) :
    EnrichState :=
  let entry := snapshot.getD i ([], ⟨[], none, none⟩)
  let st1 := { st with processed := st.processed ++ [i] }
  match fundOutcome env now entry.2 with
  | none => { st1 with failed := st1.failed + 1 }
  | some r =>
    { st1 with
      successful := st1.successful + 1
      funds := st1.funds.map
        (fun p => if p.1 = entry.1 then (p.1, { p.2 with returns := some r }) else p) }

/-- The `MFApiEnricher.save_progress` method: record the checkpoint in
`data['enrichment_progress']` and write the output file (logged in
`saves`). -/
def save_progress (st : EnrichState) (current_index : ℕ) : EnrichState :=
  let cp : Checkpoint := ⟨current_index, st.successful, st.failed⟩
  { st with progress := some cp, saves := st.saves ++ [cp] }

/-- The `MFApiEnricher.save_final` method: set `enrichment_complete`,
write `enrichment_stats`, and delete `enrichment_progress`. -/
def save_final (st : EnrichState) : EnrichState :=
  { st with
    complete := true
    stats := some ⟨st.funds.length, st.successful, st.failed⟩
    progress := none }

/-- Python truthiness of `fund_info.get('scheme_code')`: `None` and the
empty string are falsy.  The `if not scheme_code: ... continue` branch of
the loop body fires exactly when this is `false`. -/
def hasSchemeCode (info : FundInfo) : Bool :=
  match info.scheme_code with
  | none => false
  | some sc => !sc.isEmpty

/-- The `for i in range(start_from, total_funds)` loop of `enrich_funds`,
with an explicit iteration budget: a budget smaller than the number of
remaining indices models a `KeyboardInterrupt` arriving after that many
complete iterations (the handler in `__main__` only prints and exits).
After index `i`, a checkpoint is saved when `(i + 1) % 50 == 0` — unless
the fund at index `i` has a falsy `scheme_code`: that branch ends in
`continue`, which skips the `save_progress` block along with the rest of
the body. -/
def enrichLoop (env : List Char → Option (List NavEntry)) (now : ℤ)
    (snapshot : List (List Char × FundInfo)) :
    ℕ → ℕ → EnrichState → EnrichState
  | _, 0, st => st
  | i, budget + 1, st =>
    if i < snapshot.length then
      let st1 := stepFund env now snapshot i st
      let st2 :=
        if hasSchemeCode (snapshot.getD i ([], ⟨[], none, none⟩)).2 = true
            ∧ (i + 1) % 50 = 0
        then save_progress st1 (i + 1) else st1
      enrichLoop env now snapshot (i + 1) budget st2
    else st

/-- An uninterrupted `enrich_funds(start_from)` run: the full loop
followed by `save_final`. -/
def enrich_funds (env : List Char → Option (List NavEntry)) (now : ℤ)
    (snapshot : List (List Char × FundInfo)) (start_from : ℕ)
    (st0 : EnrichState) : EnrichState :=
  save_final (enrichLoop env now snapshot start_from (snapshot.length - start_from) st0)

/-- The core of `MFApiEnricher.resume_from_progress` (the affirmative
path of its interactive prompt): from a saved `enrichment_progress`
object, the start index and the restored counters; with no saved
progress, index 0 with zero counters. -/
def resume_from_progress : Option Checkpoint → ℕ × ℕ × ℕ
  | some cp => (cp.last_index, cp.successful, cp.failed)
  | none => (0, 0, 0)

/-! Helper lemmas about association-list lookup. -/

theorem lookup_append_of_some {α β : Type} [BEq α] (l l' : List (α × β)) (k : α)
    (v : β) (h : l.lookup k = some v) : (l ++ l').lookup k = some v := by
  induction l with
  | nil => simp [List.lookup] at h
  | cons a t ih =>
    simp only [List.cons_append, List.lookup] at h ⊢
    cases hk : k == a.1 with
    | true => simpa [hk] using h
    | false =>
      simp only [hk] at h ⊢
      exact ih h

theorem lookup_none_iff {α β : Type} [BEq α] [LawfulBEq α] (l : List (α × β)) (k : α) :
    l.lookup k = none ↔ k ∉ l.map Prod.fst := by
  induction l with
  | nil => simp [List.lookup]
  | cons a t ih =>
    simp only [List.lookup, List.map_cons, List.mem_cons]
    cases hk : k == a.1 with
    | true =>
      simp only [beq_iff_eq] at hk
      simp [hk]
    | false =>
      simp only [beq_eq_false_iff_ne, ne_eq] at hk
      simp [hk, ih]

/-- The default record used with `List.getD`. -/
def dfltRec : List Char × FundRecord := ([], ⟨[], none, [], none, [], ""⟩)

/-- Characterization of the insertion branch of `processLine`: when the
stripped line is not an AMC header, contains a semicolon, splits into at
least 6 fields with non-empty name and code, and its cleaned name is not
yet a key, the new record is appended, built from fields 0, 3, 4 and 5. -/
theorem processLine_inserts (st : ParserState) (rawLine : List Char)
    (hAmc : ¬ (pyStrip rawLine ≠ [] ∧ ¬ ((pyStrip rawLine).headD ' ').isDigit = true))
    (hSemi : (pyStrip rawLine).contains ';' = true)
    (hLen : 6 ≤ (splitSep ';' (pyStrip rawLine)).length)
    (hName : ¬ pyStrip ((splitSep ';' (pyStrip rawLine)).getD 3 []) = [])
    (hCode : ¬ pyStrip ((splitSep ';' (pyStrip rawLine)).getD 0 []) = [])
    (hFresh : (st.funds.lookup
        (clean_fund_name (pyStrip ((splitSep ';' (pyStrip rawLine)).getD 3 [])))).isNone = true) :
    processLine st rawLine = { st with funds := st.funds ++
      [(clean_fund_name (pyStrip ((splitSep ';' (pyStrip rawLine)).getD 3 [])),
        { name := pyStrip ((splitSep ';' (pyStrip rawLine)).getD 3 [])
          amc := st.current_amc
          scheme_code := pyStrip ((splitSep ';' (pyStrip rawLine)).getD 0 [])
          nav := if pyStrip ((splitSep ';' (pyStrip rawLine)).getD 4 []) = [] then none
                 else parsePyFloat (pyStrip ((splitSep ';' (pyStrip rawLine)).getD 4 []))
          nav_date := pyStrip ((splitSep ';' (pyStrip rawLine)).getD 5 [])
          category := determine_category
            (pyStrip ((splitSep ';' (pyStrip rawLine)).getD 3 [])) })] } := by
  unfold processLine
  rw [if_neg hAmc, if_pos hSemi, if_pos hLen,
    if_neg (by
      intro hc
      rcases hc with hc | hc
      · exact hName hc
      · exact hCode hc),
    if_pos hFresh]

theorem getD_append_len {α : Type} (l : List α) (x d : α) :
    (l ++ [x]).getD l.length d = x := by
  induction l with
  | nil => rfl
  | cons a t ih => simpa using ih

/-- C1: for every feed line that splits on the semicolon delimiter into at
least 6 fields (and passes the record-branch guards), the parser extracts
the scheme code from field index 0, the fund name from index 3, the NAV
string from index 4 and the NAV date from index 5. -/
theorem c1_record_field_positions (st : ParserState) (rawLine : List Char)
    (hAmc : ¬ (pyStrip rawLine ≠ [] ∧ ¬ ((pyStrip rawLine).headD ' ').isDigit = true))
    (hSemi : (pyStrip rawLine).contains ';' = true)
    (hLen : 6 ≤ (splitSep ';' (pyStrip rawLine)).length)
    (hName : ¬ pyStrip ((splitSep ';' (pyStrip rawLine)).getD 3 []) = [])
    (hCode : ¬ pyStrip ((splitSep ';' (pyStrip rawLine)).getD 0 []) = [])
    (hFresh : (st.funds.lookup
        (clean_fund_name (pyStrip ((splitSep ';' (pyStrip rawLine)).getD 3 [])))).isNone = true) :
    ((processLine st rawLine).funds.getD st.funds.length dfltRec).2.scheme_code
        = pyStrip ((splitSep ';' (pyStrip rawLine)).getD 0 []) ∧
    ((processLine st rawLine).funds.getD st.funds.length dfltRec).2.name
        = pyStrip ((splitSep ';' (pyStrip rawLine)).getD 3 []) ∧
    ((processLine st rawLine).funds.getD st.funds.length dfltRec).2.nav
        = (if pyStrip ((splitSep ';' (pyStrip rawLine)).getD 4 []) = [] then none
           else parsePyFloat (pyStrip ((splitSep ';' (pyStrip rawLine)).getD 4 []))) ∧
    ((processLine st rawLine).funds.getD st.funds.length dfltRec).2.nav_date
        = pyStrip ((splitSep ';' (pyStrip rawLine)).getD 5 []) ∧
    (processLine st rawLine).funds
        = st.funds ++
          [(clean_fund_name (pyStrip ((splitSep ';' (pyStrip rawLine)).getD 3 [])),
            ((processLine st rawLine).funds.getD st.funds.length dfltRec).2)] := by
  rw [processLine_inserts st rawLine hAmc hSemi hLen hName hCode hFresh]
  simp [getD_append_len]

/-- Witness for C1 on a synthetic feed line, also showing the extracted
name differs from the field at index 2 (the 5-field layout would have
mis-extracted it). -/
theorem c1_record_field_positions_witness :
    (((processLine initParser ("123;INF123;-;My Fund;45.6;01-01-2024".toList)).funds.getD
        0 dfltRec).2.scheme_code = "123".toList ∧
     ((processLine initParser ("123;INF123;-;My Fund;45.6;01-01-2024".toList)).funds.getD
        0 dfltRec).2.name = "My Fund".toList ∧
     ((processLine initParser ("123;INF123;-;My Fund;45.6;01-01-2024".toList)).funds.getD
        0 dfltRec).2.nav = some (mkRat 228 5) ∧
     ((processLine initParser ("123;INF123;-;My Fund;45.6;01-01-2024".toList)).funds.getD
        0 dfltRec).2.nav_date = "01-01-2024".toList) ∧
    "My Fund".toList ≠
      pyStrip ((splitSep ';' (pyStrip ("123;INF123;-;My Fund;45.6;01-01-2024".toList))).getD 2 []) := by
  have h := c1_record_field_positions initParser
    ("123;INF123;-;My Fund;45.6;01-01-2024".toList)
    (by decide) (by decide) (by decide) (by decide) (by decide) (by decide)
  exact ⟨⟨h.1.trans (by decide), h.2.1.trans (by decide),
    h.2.2.1.trans (by decide), h.2.2.2.1.trans (by decide)⟩, by decide⟩

/-- C4: a line with fewer than 6 semicolon-delimited fields, or with an
empty name field (index 3) or empty code field (index 0), inserts no
record into the catalog (and, the functions being total, raises nothing). -/
theorem c4_invalid_lines_no_insert (st : ParserState) (rawLine : List Char)
    (h : (splitSep ';' (pyStrip rawLine)).length < 6 ∨
      pyStrip ((splitSep ';' (pyStrip rawLine)).getD 3 []) = [] ∨
      pyStrip ((splitSep ';' (pyStrip rawLine)).getD 0 []) = []) :
    (processLine st rawLine).funds = st.funds := by
  unfold processLine
  dsimp only
  split_ifs with hA hB hC hD hE <;>
    first
      | rfl
      | (exfalso
         rcases h with h | h | h
         · omega
         · exact absurd (Or.inl h) (by assumption)
         · exact absurd (Or.inr h) (by assumption))

/-- Witness for C4 on a 4-field line. -/
theorem c4_invalid_lines_no_insert_witness :
    (processLine initParser ("12;a;b;c".toList)).funds = initParser.funds :=
  c4_invalid_lines_no_insert initParser ("12;a;b;c".toList) (by decide)

/-- C2, counterexample: the record inserted for the feed line
`123;INF123;-;Alpha Fund - Direct Index Plan;10.5;01-01-2024` carries the
category computed from the original published name (`Equity - Index`,
because the original name contains `index`), which differs from the
category of the normalized name `Alpha Fund` (`Other`): the claim that the
category is derived from the normalized name fails on this input. -/
theorem c2_category_counterexample :
    (((processLine initParser
        ("123;INF123;-;Alpha Fund - Direct Index Plan;10.5;01-01-2024".toList)).funds.getD
        0 dfltRec).2.category = "Equity - Index") ∧
    determine_category (clean_fund_name
      (((processLine initParser
        ("123;INF123;-;Alpha Fund - Direct Index Plan;10.5;01-01-2024".toList)).funds.getD
        0 dfltRec).2.name)) = "Other" ∧
    (((processLine initParser
        ("123;INF123;-;Alpha Fund - Direct Index Plan;10.5;01-01-2024".toList)).funds.getD
        0 dfltRec).2.category ≠
      determine_category (clean_fund_name
        (((processLine initParser
          ("123;INF123;-;Alpha Fund - Direct Index Plan;10.5;01-01-2024".toList)).funds.getD
          0 dfltRec).2.name))) := by
  refine ⟨by decide, by decide, by decide⟩

/-- C2, amended: the category of every inserted record is computed by the
13-rule first-match-wins substring table (`determine_category`) applied to
the lower-cased ORIGINAL published fund name (field 3 of the line), not to
the normalized name. -/
theorem c2_category_from_published_name (st : ParserState) (rawLine : List Char)
    (hAmc : ¬ (pyStrip rawLine ≠ [] ∧ ¬ ((pyStrip rawLine).headD ' ').isDigit = true))
    (hSemi : (pyStrip rawLine).contains ';' = true)
    (hLen : 6 ≤ (splitSep ';' (pyStrip rawLine)).length)
    (hName : ¬ pyStrip ((splitSep ';' (pyStrip rawLine)).getD 3 []) = [])
    (hCode : ¬ pyStrip ((splitSep ';' (pyStrip rawLine)).getD 0 []) = [])
    (hFresh : (st.funds.lookup
        (clean_fund_name (pyStrip ((splitSep ';' (pyStrip rawLine)).getD 3 [])))).isNone = true) :
    ((processLine st rawLine).funds.getD st.funds.length dfltRec).2.category
      = determine_category (pyStrip ((splitSep ';' (pyStrip rawLine)).getD 3 [])) := by
  rw [processLine_inserts st rawLine hAmc hSemi hLen hName hCode hFresh]
  simp only [getD_append_len]

/-- Witness for the amended C2. -/
theorem c2_category_from_published_name_witness :
    ((processLine initParser
        ("123;INF123;-;Alpha Fund - Direct Index Plan;10.5;01-01-2024".toList)).funds.getD
        0 dfltRec).2.category = "Equity - Index" :=
  (c2_category_from_published_name initParser
    ("123;INF123;-;Alpha Fund - Direct Index Plan;10.5;01-01-2024".toList)
    (by decide) (by decide) (by decide) (by decide) (by decide) (by decide)).trans
    (by decide)

theorem processLine_lookup_mono (st : ParserState) (line key : List Char)
    (v : FundRecord) (h : st.funds.lookup key = some v) :
    (processLine st line).funds.lookup key = some v := by
  unfold processLine
  dsimp only
  split_ifs <;> first | exact h | exact lookup_append_of_some _ _ _ _ h

theorem processLine_keys_nodup (st : ParserState) (line : List Char)
    (h : (st.funds.map Prod.fst).Nodup) :
    ((processLine st line).funds.map Prod.fst).Nodup := by
  unfold processLine
  dsimp only
  split_ifs with hA hB hC hD hE <;> try exact h
  all_goals rw [Option.isNone_iff_eq_none, lookup_none_iff] at hE
  all_goals simp only [List.map_append, List.map_cons, List.map_nil]
  all_goals rw [List.nodup_append]
  all_goals
    exact ⟨h, List.nodup_singleton _, by
      intro a ha hb
      simp only [List.mem_singleton] at hb
      exact hE (hb ▸ ha)⟩

theorem foldl_keys_nodup (lines : List (List Char)) :
    ∀ st : ParserState, (st.funds.map Prod.fst).Nodup →
      ((lines.foldl processLine st).funds.map Prod.fst).Nodup := by
  induction lines with
  | nil => intro st h; simpa using h
  | cons l ls ih =>
    intro st h
    simp only [List.foldl_cons]
    exact ih _ (processLine_keys_nodup st l h)

theorem foldl_lookup_mono (lines : List (List Char)) :
    ∀ (st : ParserState) (key : List Char) (v : FundRecord),
      st.funds.lookup key = some v →
      ((lines.foldl processLine st).funds.lookup key = some v) := by
  induction lines with
  | nil => intro st key v h; simpa using h
  | cons l ls ih =>
    intro st key v h
    simp only [List.foldl_cons]
    exact ih _ key v (processLine_lookup_mono st l key v h)

/-- C5: first-seen records win.  If a key maps to a record, further lines
never change that binding (later duplicates are discarded), and after any
full parse the catalog keys are pairwise distinct. -/
theorem c5_dedup_first_wins :
    (∀ (st : ParserState) (lines : List (List Char)) (key : List Char) (v : FundRecord),
        st.funds.lookup key = some v →
        (lines.foldl processLine st).funds.lookup key = some v) ∧
    (∀ lines : List (List Char), ((processFeed lines).funds.map Prod.fst).Nodup) := by
  constructor
  · intro st lines key v h
    exact foldl_lookup_mono lines st key v h
  · intro lines
    exact foldl_keys_nodup lines initParser (by simp [initParser])

/-- Witness for C5: two record lines normalizing to the key `Dup Fund`;
the catalog keeps the first record (code 123, NAV 10) and its keys are
duplicate-free. -/
theorem c5_dedup_first_wins_witness :
    (([("123;I1;-;Dup Fund - Direct;10;01-01-2024".toList),
       ("456;I2;-;Dup Fund - Regular;20;02-02-2024".toList)].foldl
        processLine initParser).funds.lookup ("Dup Fund".toList)
      = some
        { name := "Dup Fund - Direct".toList
          amc := none
          scheme_code := "123".toList
          nav := some (mkRat 10 1)
          nav_date := "01-01-2024".toList
          category := "Other" }) ∧
    ((processFeed [("123;I1;-;Dup Fund - Direct;10;01-01-2024".toList),
       ("456;I2;-;Dup Fund - Regular;20;02-02-2024".toList)]).funds.map Prod.fst).Nodup := by
  constructor
  · exact c5_dedup_first_wins.1
      (processLine initParser ("123;I1;-;Dup Fund - Direct;10;01-01-2024".toList))
      [("456;I2;-;Dup Fund - Regular;20;02-02-2024".toList)]
      ("Dup Fund".toList) _ (by decide)
  · exact c5_dedup_first_wins.2 _

/-- C6: with NAV history `[(today, 120.0), (366 days ago, 100.0)]` in
most-recent-first order, the 1-year return is exactly 20.0 (the longer
horizons are absent), and any history of fewer than 2 points yields no
returns at all. -/
theorem c6_one_year_return (now : ℤ) (d0 d1 : List Char)
    (h0 : parseDate d0 = some now) (h1 : parseDate d1 = some (now - 366)) :
    calculate_returns now [⟨d0, "120.0".toList⟩, ⟨d1, "100.0".toList⟩]
        = some ⟨some 20, none, none⟩ ∧
    ∀ hist : List NavEntry, hist.length < 2 → calculate_returns now hist = none := by
  have hp120 : parsePyFloat ("120.0".toList) = some (mkRat 1200 10) := by decide
  have hp100 : parsePyFloat ("100.0".toList) = some (mkRat 1000 10) := by decide
  constructor
  · have g365 : get_nav_n_days_ago now 365 [⟨d0, "120.0".toList⟩, ⟨d1, "100.0".toList⟩]
        = some (mkRat 1000 10) := by
      simp only [get_nav_n_days_ago, h0, h1, hp100]
      rw [if_neg (by omega), if_pos (by omega)]
    have g1095 : get_nav_n_days_ago now 1095 [⟨d0, "120.0".toList⟩, ⟨d1, "100.0".toList⟩]
        = none := by
      simp only [get_nav_n_days_ago, h0, h1, hp100]
      rw [if_neg (by omega), if_neg (by omega)]
    have g1825 : get_nav_n_days_ago now 1825 [⟨d0, "120.0".toList⟩, ⟨d1, "100.0".toList⟩]
        = none := by
      simp only [get_nav_n_days_ago, h0, h1, hp100]
      rw [if_neg (by omega), if_neg (by omega)]
    simp only [calculate_returns, hp120]
    rw [if_neg (by simp)]
    rw [g365, g1095, g1825]
    decide
  · intro hist h
    simp [calculate_returns, h]

/-- Witness for C6 at a concrete pair of dates 366 days apart. -/
theorem c6_one_year_return_witness :
    calculate_returns 739901
      [⟨"12-10-2026".toList, "120.0".toList⟩, ⟨"11-10-2025".toList, "100.0".toList⟩]
      = some ⟨some 20, none, none⟩ ∧
    calculate_returns 739901 [⟨"12-10-2026".toList, "120.0".toList⟩] = none :=
  ⟨(c6_one_year_return 739901 ("12-10-2026".toList) ("11-10-2025".toList)
      (by decide) (by decide)).1,
   (c6_one_year_return 739901 ("12-10-2026".toList) ("11-10-2025".toList)
      (by decide) (by decide)).2 _ (by decide)⟩

/-- Decidable statement of "no scanned point has a parseable date at or
before `now - days`" (a point with an unparseable date counts as absent,
per the per-point exception handler). -/
def noPointAtOrBefore (now days : ℤ) (hist : List NavEntry) : Bool :=
  hist.all fun e =>
    match parseDate e.date with
    | some d => decide (now - days < d)
    | none => true

theorem get_nav_none_of_noPoint (now days : ℤ) (hist : List NavEntry)
    (h : noPointAtOrBefore now days hist = true) :
    get_nav_n_days_ago now days hist = none := by
  induction hist with
  | nil => rfl
  | cons e rest ih =>
    simp only [noPointAtOrBefore, List.all_cons, Bool.and_eq_true] at h
    obtain ⟨he, hrest⟩ := h
    simp only [get_nav_n_days_ago]
    cases hpd : parseDate e.date with
    | none => exact ih hrest
    | some d =>
      rw [hpd] at he
      have hlt : now - days < d := by simpa using he
      dsimp only
      rw [if_neg (by omega)]
      exact ih hrest

/-- C7: a point whose date fails to parse is skipped without aborting the
scan, and when no point has a parseable date at or before a horizon's
cutoff, that horizon of the computed returns is absent (not an error, not
zero). -/
theorem c7_malformed_skipped_missing_absent :
    (∀ (now days : ℤ) (e : NavEntry) (rest : List NavEntry),
        parseDate e.date = none →
        get_nav_n_days_ago now days (e :: rest) = get_nav_n_days_ago now days rest) ∧
    (∀ (now : ℤ) (hist : List NavEntry) (r : Returns),
        calculate_returns now hist = some r →
        (noPointAtOrBefore now 365 hist = true → r.y1 = none) ∧
        (noPointAtOrBefore now 1095 hist = true → r.y3 = none) ∧
        (noPointAtOrBefore now 1825 hist = true → r.y5 = none)) := by
  constructor
  · intro now days e rest h
    simp only [get_nav_n_days_ago, h]
  · intro now hist r hcr
    unfold calculate_returns at hcr
    by_cases hlen : hist.length < 2
    · rw [if_pos hlen] at hcr
      exact absurd hcr (by simp)
    · rw [if_neg hlen] at hcr
      cases hist with
      | nil => exact absurd hcr (by simp)
      | cons h0 rest =>
        dsimp only at hcr
        cases hpf : parsePyFloat h0.nav with
        | none => rw [hpf] at hcr; exact absurd hcr (by simp)
        | some current =>
          rw [hpf] at hcr
          have hr := Option.some.inj hcr
          subst hr
          refine ⟨fun hnp => ?_, fun hnp => ?_, fun hnp => ?_⟩ <;>
            simp [get_nav_none_of_noPoint _ _ _ hnp, horizonReturn]

/-- Witness for C7: an unparseable date is skipped, and a two-point
history entirely inside the last year yields a result with every horizon
absent. -/
theorem c7_malformed_skipped_missing_absent_witness :
    get_nav_n_days_ago 0 365 [⟨"garbage".toList, "50".toList⟩]
      = get_nav_n_days_ago 0 365 [] ∧
    calculate_returns 739901
      [⟨"12-10-2026".toList, "120.0".toList⟩, ⟨"10-10-2026".toList, "100.0".toList⟩]
      = some ⟨none, none, none⟩ ∧
    (⟨none, none, none⟩ : Returns).y1 = none :=
  ⟨c7_malformed_skipped_missing_absent.1 0 365 ⟨"garbage".toList, "50".toList⟩ [] (by decide),
   by decide,
   (c7_malformed_skipped_missing_absent.2 739901
      [⟨"12-10-2026".toList, "120.0".toList⟩, ⟨"10-10-2026".toList, "100.0".toList⟩]
      ⟨none, none, none⟩ (by decide)).1 (by decide)⟩

/-- C10, counterexample: in this history the FIRST point at or before the
1-year cutoff (dated 366 days back) has the unparseable NAV string `abc`;
the claim says the horizon is then absent, but the scan continues and the
next qualifying point (370 days back, NAV 100.0) makes the 1-year return
present with value 20.0. -/
theorem c10_unparseable_nav_counterexample :
    parseDate ("12-10-2026".toList) = some 739901 ∧
    parseDate ("11-10-2025".toList) = some (739901 - 366) ∧
    ((739901 - 366 : ℤ) ≤ 739901 - 365) ∧
    ¬ ((739901 : ℤ) ≤ 739901 - 365) ∧
    parsePyFloat ("abc".toList) = none ∧
    calculate_returns 739901
      [⟨"12-10-2026".toList, "120.0".toList⟩, ⟨"11-10-2025".toList, "abc".toList⟩,
       ⟨"07-10-2025".toList, "100.0".toList⟩] = some ⟨some 20, none, none⟩ := by
  decide

/-- C10, amended: `calculate_returns` is a total function; a scanned point
at or before the cutoff whose NAV parses to 0.0 is returned by the scan
but, being falsy, leaves that horizon absent instead of dividing by zero;
a point whose NAV string fails to parse is skipped and the scan continues
with the later points. -/
theorem c10_division_safety :
    (∀ (now : ℤ) (hist : List NavEntry) (r : Returns),
        calculate_returns now hist = some r →
        (get_nav_n_days_ago now 365 hist = some 0 → r.y1 = none) ∧
        (get_nav_n_days_ago now 1095 hist = some 0 → r.y3 = none) ∧
        (get_nav_n_days_ago now 1825 hist = some 0 → r.y5 = none)) ∧
    (∀ (now days : ℤ) (e : NavEntry) (rest : List NavEntry) (d : ℤ),
        parseDate e.date = some d → d ≤ now - days → parsePyFloat e.nav = none →
        get_nav_n_days_ago now days (e :: rest) = get_nav_n_days_ago now days rest) := by
  constructor
  · intro now hist r hcr
    unfold calculate_returns at hcr
    by_cases hlen : hist.length < 2
    · rw [if_pos hlen] at hcr
      exact absurd hcr (by simp)
    · rw [if_neg hlen] at hcr
      cases hist with
      | nil => exact absurd hcr (by simp)
      | cons h0 rest =>
        dsimp only at hcr
        cases hpf : parsePyFloat h0.nav with
        | none => rw [hpf] at hcr; exact absurd hcr (by simp)
        | some current =>
          rw [hpf] at hcr
          have hr := Option.some.inj hcr
          subst hr
          refine ⟨fun hg => ?_, fun hg => ?_, fun hg => ?_⟩ <;>
            simp [hg, horizonReturn]
  · intro now days e rest d hpd hle hpf
    simp only [get_nav_n_days_ago, hpd, hpf]
    rw [if_pos hle]

/-- Witness for the amended C10: a past NAV of exactly 0.0 at the 1-year
cutoff leaves every horizon absent, and an unparseable NAV string is
skipped in favour of the next point. -/
theorem c10_division_safety_witness :
    calculate_returns 739901
      [⟨"12-10-2026".toList, "120.0".toList⟩, ⟨"11-10-2025".toList, "0.0".toList⟩]
      = some ⟨none, none, none⟩ ∧
    (⟨none, none, none⟩ : Returns).y1 = none ∧
    get_nav_n_days_ago 739901 365
      [⟨"11-10-2025".toList, "abc".toList⟩, ⟨"07-10-2025".toList, "100.0".toList⟩]
      = get_nav_n_days_ago 739901 365 [⟨"07-10-2025".toList, "100.0".toList⟩] :=
  ⟨by decide,
   (c10_division_safety.1 739901
      [⟨"12-10-2026".toList, "120.0".toList⟩, ⟨"11-10-2025".toList, "0.0".toList⟩]
      ⟨none, none, none⟩ (by decide)).1 (by decide),
   c10_division_safety.2 739901 365 _ _ (739901 - 366) (by decide) (by decide) (by decide)⟩

/-! Effect lemmas for one loop iteration. -/

theorem stepFund_processed (env : List Char → Option (List NavEntry)) (now : ℤ)
    (snapshot : List (List Char × FundInfo)) (i : ℕ) (st : EnrichState) :
    (stepFund env now snapshot i st).processed = st.processed ++ [i] := by
  cases h : fundOutcome env now (snapshot.getD i ([], ⟨[], none, none⟩)).2 <;>
    (unfold stepFund; dsimp only; rw [h])

theorem stepFund_successful (env : List Char → Option (List NavEntry)) (now : ℤ)
    (snapshot : List (List Char × FundInfo)) (i : ℕ) (st : EnrichState) :
    (stepFund env now snapshot i st).successful
      = st.successful
        + (if isSuccess env now (snapshot.getD i ([], ⟨[], none, none⟩)).2 then 1 else 0) := by
  cases h : fundOutcome env now (snapshot.getD i ([], ⟨[], none, none⟩)).2 <;>
    (unfold stepFund; dsimp only; rw [h]; simp only [isSuccess, h]; rfl)

theorem stepFund_failed (env : List Char → Option (List NavEntry)) (now : ℤ)
    (snapshot : List (List Char × FundInfo)) (i : ℕ) (st : EnrichState) :
    (stepFund env now snapshot i st).failed
      = st.failed
        + (if isSuccess env now (snapshot.getD i ([], ⟨[], none, none⟩)).2 then 0 else 1) := by
  cases h : fundOutcome env now (snapshot.getD i ([], ⟨[], none, none⟩)).2 <;>
    (unfold stepFund; dsimp only; rw [h]; simp only [isSuccess, h]; rfl)

theorem stepFund_saves (env : List Char → Option (List NavEntry)) (now : ℤ)
    (snapshot : List (List Char × FundInfo)) (i : ℕ) (st : EnrichState) :
    (stepFund env now snapshot i st).saves = st.saves := by
  cases h : fundOutcome env now (snapshot.getD i ([], ⟨[], none, none⟩)).2 <;>
    (unfold stepFund; dsimp only; rw [h])

theorem save_progress_processed (st : EnrichState) (j : ℕ) :
    (save_progress st j).processed = st.processed := rfl

theorem save_progress_successful (st : EnrichState) (j : ℕ) :
    (save_progress st j).successful = st.successful := rfl

theorem save_progress_failed (st : EnrichState) (j : ℕ) :
    (save_progress st j).failed = st.failed := rfl

theorem save_progress_saves (st : EnrichState) (j : ℕ) :
    (save_progress st j).saves = st.saves ++ [⟨j, st.successful, st.failed⟩] := rfl

/-- Full characterization of an enrichment loop run with iteration budget
`budget` starting at index `i`: the processed indices, the additivity of
both counters over the per-fund outcomes, and the exact checkpoint
positions — a checkpoint `j + 1` is written for exactly those processed
indices `j` with `(j + 1) % 50 = 0` whose fund has a truthy scheme code
(the no-scheme-code `continue` skips the `save_progress` block). -/
theorem enrichLoop_spec (env : List Char → Option (List NavEntry)) (now : ℤ)
    (snapshot : List (List Char × FundInfo)) :
    ∀ (budget i : ℕ) (st : EnrichState), i + budget ≤ snapshot.length →
      (enrichLoop env now snapshot i budget st).processed
          = st.processed ++ List.range' i budget ∧
      (enrichLoop env now snapshot i budget st).successful
          = st.successful + (List.range' i budget).countP
              (fun j => isSuccess env now (snapshot.getD j ([], ⟨[], none, none⟩)).2) ∧
      (enrichLoop env now snapshot i budget st).failed
          = st.failed + (List.range' i budget).countP
              (fun j => ! isSuccess env now (snapshot.getD j ([], ⟨[], none, none⟩)).2) ∧
      (enrichLoop env now snapshot i budget st).saves.map Checkpoint.last_index
          = st.saves.map Checkpoint.last_index
              ++ ((List.range' i budget).filter
                    (fun j => hasSchemeCode (snapshot.getD j ([], ⟨[], none, none⟩)).2 = true
                      ∧ (j + 1) % 50 = 0)).map (fun j => j + 1) := by
  intro budget
  induction budget with
  | zero =>
    intro i st h
    simp [enrichLoop]
  | succ b ih =>
    intro i st h
    have hi : i < snapshot.length := by omega
    show (enrichLoop env now snapshot i (b + 1) st).processed = _ ∧ _
    simp only [enrichLoop, if_pos hi]
    by_cases hC : hasSchemeCode (snapshot.getD i ([], ⟨[], none, none⟩)).2 = true
        ∧ (i + 1) % 50 = 0
    · rw [if_pos hC]
      obtain ⟨P, S, F, V⟩ := ih (i + 1) (save_progress (stepFund env now snapshot i st) (i + 1))
        (by omega)
      rw [List.range'_succ]
      refine ⟨?_, ?_, ?_, ?_⟩
      · rw [P, save_progress_processed, stepFund_processed]
        simp
      · rw [S, save_progress_successful, stepFund_successful, List.countP_cons]
        cases hp : isSuccess env now (snapshot.getD i ([], ⟨[], none, none⟩)).2 <;>
          simp [hp] <;> omega
      · rw [F, save_progress_failed, stepFund_failed, List.countP_cons]
        cases hp : isSuccess env now (snapshot.getD i ([], ⟨[], none, none⟩)).2 <;>
          simp [hp] <;> omega
      · rw [V, save_progress_saves, stepFund_saves, List.filter_cons]
        rw [if_pos (by simp only [decide_eq_true_eq]; exact ⟨hC.1, hC.2⟩)]
        simp
    · rw [if_neg hC]
      obtain ⟨P, S, F, V⟩ := ih (i + 1) (stepFund env now snapshot i st) (by omega)
      rw [List.range'_succ]
      refine ⟨?_, ?_, ?_, ?_⟩
      · rw [P, stepFund_processed]
        simp
      · rw [S, stepFund_successful, List.countP_cons]
        cases hp : isSuccess env now (snapshot.getD i ([], ⟨[], none, none⟩)).2 <;>
          simp [hp] <;> omega
      · rw [F, stepFund_failed, List.countP_cons]
        cases hp : isSuccess env now (snapshot.getD i ([], ⟨[], none, none⟩)).2 <;>
          simp [hp] <;> omega
      · rw [V, stepFund_saves, List.filter_cons]
        rw [if_neg (by simp only [decide_eq_true_eq]; exact hC)]

/-- C3, counterexample: a run over a two-fund catalog interrupted after
one processed record (modelled by iteration budget 1) performs no
checkpoint write at all — its `saves` log is empty and no
`enrichment_progress` field was ever set — although one record was
processed; the interrupt handler in `__main__` only prints and exits, so
no checkpoint is written on graceful interruption. -/
theorem c3_interrupt_no_checkpoint_counterexample :
    ((enrichLoop (fun _ => none) 0
        [("a".toList, ⟨"a".toList, none, none⟩), ("b".toList, ⟨"b".toList, none, none⟩)]
        0 1
        (initEnrich
          [("a".toList, ⟨"a".toList, none, none⟩), ("b".toList, ⟨"b".toList, none, none⟩)]
          0 0)).saves = []) ∧
    ((enrichLoop (fun _ => none) 0
        [("a".toList, ⟨"a".toList, none, none⟩), ("b".toList, ⟨"b".toList, none, none⟩)]
        0 1
        (initEnrich
          [("a".toList, ⟨"a".toList, none, none⟩), ("b".toList, ⟨"b".toList, none, none⟩)]
          0 0)).processed = [0]) ∧
    ((enrichLoop (fun _ => none) 0
        [("a".toList, ⟨"a".toList, none, none⟩), ("b".toList, ⟨"b".toList, none, none⟩)]
        0 1
        (initEnrich
          [("a".toList, ⟨"a".toList, none, none⟩), ("b".toList, ⟨"b".toList, none, none⟩)]
          0 0)).progress = none) := by
  refine ⟨by decide, by decide, by decide⟩

/-- C3 (amended): checkpoint writes happen only at 50-record boundaries —
in any (possibly interrupted) run a checkpoint `i + 1` is written for
exactly those processed indices `i` with `(i + 1) % 50 = 0` whose fund has
a truthy scheme code (the no-scheme-code branch ends in `continue`, which
skips the `save_progress` call, so a 50-boundary fund without a scheme
code produces no checkpoint), and nothing extra is written at an
interruption — and on completion of the loop `save_final` removes the
checkpoint field and writes completion statistics in its place. -/
theorem c3_checkpoint_cadence_and_completion :
    (∀ (env : List Char → Option (List NavEntry)) (now : ℤ)
        (snapshot : List (List Char × FundInfo)) (i budget : ℕ) (st : EnrichState),
        i + budget ≤ snapshot.length →
        (enrichLoop env now snapshot i budget st).saves.map Checkpoint.last_index
          = st.saves.map Checkpoint.last_index
              ++ ((List.range' i budget).filter
                    (fun j => hasSchemeCode (snapshot.getD j ([], ⟨[], none, none⟩)).2 = true
                      ∧ (j + 1) % 50 = 0)).map (fun j => j + 1)) ∧
    (∀ (env : List Char → Option (List NavEntry)) (now : ℤ)
        (snapshot : List (List Char × FundInfo)) (start : ℕ) (st0 : EnrichState),
        (enrich_funds env now snapshot start st0).progress = none ∧
        (enrich_funds env now snapshot start st0).complete = true ∧
        (enrich_funds env now snapshot start st0).stats
          = some ⟨(enrichLoop env now snapshot start (snapshot.length - start) st0).funds.length,
                  (enrichLoop env now snapshot start (snapshot.length - start) st0).successful,
                  (enrichLoop env now snapshot start (snapshot.length - start) st0).failed⟩) := by
  constructor
  · intro env now snapshot i budget st h
    exact (enrichLoop_spec env now snapshot budget i st h).2.2.2
  · intro env now snapshot start st0
    exact ⟨rfl, rfl, rfl⟩

/-- Witness for the amended C3: over 60 records that all carry a scheme
code the only checkpoint is at index 50; over 60 records none of which
carries a scheme code no checkpoint at all is written (the 50-boundary
fund's `continue` skips the save); and a complete run clears the
checkpoint field. -/
theorem c3_checkpoint_cadence_and_completion_witness :
    ((enrichLoop (fun _ => none) 0
        (List.replicate 60 (([] : List Char), (⟨[], some "x".toList, none⟩ : FundInfo))) 0 60
        (initEnrich (List.replicate 60 (([] : List Char), (⟨[], some "x".toList, none⟩ : FundInfo))) 0 0)).saves.map
          Checkpoint.last_index = [50]) ∧
    ((enrichLoop (fun _ => none) 0
        (List.replicate 60 (([] : List Char), (⟨[], none, none⟩ : FundInfo))) 0 60
        (initEnrich (List.replicate 60 (([] : List Char), (⟨[], none, none⟩ : FundInfo))) 0 0)).saves.map
          Checkpoint.last_index = []) ∧
    (enrich_funds (fun _ => none) 0
        (List.replicate 60 (([] : List Char), (⟨[], none, none⟩ : FundInfo))) 0
        (initEnrich (List.replicate 60 (([] : List Char), (⟨[], none, none⟩ : FundInfo))) 0 0)).progress
      = none := by
  refine ⟨?_, ?_, ?_⟩
  · exact (c3_checkpoint_cadence_and_completion.1 (fun _ => none) 0
      (List.replicate 60 (([] : List Char), (⟨[], some "x".toList, none⟩ : FundInfo))) 0 60
      (initEnrich (List.replicate 60 (([] : List Char), (⟨[], some "x".toList, none⟩ : FundInfo))) 0 0)
      (by decide)).trans (by decide)
  · exact (c3_checkpoint_cadence_and_completion.1 (fun _ => none) 0
      (List.replicate 60 (([] : List Char), (⟨[], none, none⟩ : FundInfo))) 0 60
      (initEnrich (List.replicate 60 (([] : List Char), (⟨[], none, none⟩ : FundInfo))) 0 0)
      (by decide)).trans (by decide)
  · exact (c3_checkpoint_cadence_and_completion.2 (fun _ => none) 0
      (List.replicate 60 (([] : List Char), (⟨[], none, none⟩ : FundInfo))) 0
      (initEnrich (List.replicate 60 (([] : List Char), (⟨[], none, none⟩ : FundInfo))) 0 0)).1

/-- C8: resuming from the checkpoint `(last_index 50, successful 40,
failed 10)` restores those counters and that start index, processes
exactly the indices from 50 upward in order (never re-processing 0–49),
and ends with counters equal to the checkpoint counters plus the counts
of successful and failed outcomes among the newly processed entries. -/
theorem c8_resume_correctness (env : List Char → Option (List NavEntry)) (now : ℤ)
    (snapshot : List (List Char × FundInfo)) (h : 50 ≤ snapshot.length) :
    resume_from_progress (some ⟨50, 40, 10⟩) = (50, 40, 10) ∧
    (enrichLoop env now snapshot 50 (snapshot.length - 50)
        (initEnrich snapshot 40 10)).processed
      = List.range' 50 (snapshot.length - 50) ∧
    (enrichLoop env now snapshot 50 (snapshot.length - 50)
        (initEnrich snapshot 40 10)).successful
      = 40 + (List.range' 50 (snapshot.length - 50)).countP
          (fun j => isSuccess env now (snapshot.getD j ([], ⟨[], none, none⟩)).2) ∧
    (enrichLoop env now snapshot 50 (snapshot.length - 50)
        (initEnrich snapshot 40 10)).failed
      = 10 + (List.range' 50 (snapshot.length - 50)).countP
          (fun j => ! isSuccess env now (snapshot.getD j ([], ⟨[], none, none⟩)).2) := by
  obtain ⟨P, S, F, V⟩ :=
    enrichLoop_spec env now snapshot (snapshot.length - 50) 50 (initEnrich snapshot 40 10)
      (by omega)
  refine ⟨rfl, ?_, ?_, ?_⟩
  · simpa [initEnrich] using P
  · simpa [initEnrich] using S
  · simpa [initEnrich] using F

/-- Witness for C8 with a 52-entry catalog and every fetch failing: the
two new entries are processed and both counted as failures. -/
theorem c8_resume_correctness_witness :
    resume_from_progress (some ⟨50, 40, 10⟩) = (50, 40, 10) ∧
    (enrichLoop (fun _ => none) 0
        (List.replicate 52 (([] : List Char), (⟨[], none, none⟩ : FundInfo))) 50 2
        (initEnrich (List.replicate 52 (([] : List Char), (⟨[], none, none⟩ : FundInfo))) 40 10)).processed
      = [50, 51] ∧
    (enrichLoop (fun _ => none) 0
        (List.replicate 52 (([] : List Char), (⟨[], none, none⟩ : FundInfo))) 50 2
        (initEnrich (List.replicate 52 (([] : List Char), (⟨[], none, none⟩ : FundInfo))) 40 10)).successful
      = 40 ∧
    (enrichLoop (fun _ => none) 0
        (List.replicate 52 (([] : List Char), (⟨[], none, none⟩ : FundInfo))) 50 2
        (initEnrich (List.replicate 52 (([] : List Char), (⟨[], none, none⟩ : FundInfo))) 40 10)).failed
      = 12 := by
  obtain ⟨R, P, S, F⟩ := c8_resume_correctness (fun _ => none) 0
    (List.replicate 52 (([] : List Char), (⟨[], none, none⟩ : FundInfo))) (by decide)
  exact ⟨R, P.trans (by decide), S.trans (by decide), F.trans (by decide)⟩

/-! Infrastructure for the idempotence analysis of `clean_fund_name`
(claim C9): a Boolean "the pattern `\s*-\s*TOK` occurs at / somewhere in
the string" predicate, and its interaction with `subTok`, whitespace
collapsing and stripping. -/

theorem intercalate_space (x : List Char) (xs : List (List Char)) :
    List.intercalate [' '] (x :: xs) =
      x ++ (if xs = [] then [] else ' ' :: List.intercalate [' '] xs) := by
  cases xs with
  | nil => simp [List.intercalate]
  | cons y ys => simp [List.intercalate]

theorem takeWhile_append_all {α : Type} (p : α → Bool) (l₁ l₂ : List α)
    (h : ∀ x ∈ l₁, p x = true) :
    (l₁ ++ l₂).takeWhile p = l₁ ++ l₂.takeWhile p := by
  induction l₁ with
  | nil => simp
  | cons a t ih =>
    simp only [List.cons_append, List.takeWhile_cons, h a (by simp), if_true]
    rw [ih (fun x hx => h x (by simp [hx]))]

theorem dropWhile_append_all {α : Type} (p : α → Bool) (l₁ l₂ : List α)
    (h : ∀ x ∈ l₁, p x = true) :
    (l₁ ++ l₂).dropWhile p = l₂.dropWhile p := by
  induction l₁ with
  | nil => simp
  | cons a t ih =>
    simp only [List.cons_append, List.dropWhile_cons, h a (by simp), if_true]
    exact ih (fun x hx => h x (by simp [hx]))

theorem dropWhile_append_of_ne_nil {α : Type} (p : α → Bool) (l₁ l₂ : List α)
    (h : l₁.dropWhile p ≠ []) :
    (l₁ ++ l₂).dropWhile p = l₁.dropWhile p ++ l₂ := by
  induction l₁ with
  | nil => simp at h
  | cons a t ih =>
    by_cases ha : p a
    · simp only [List.dropWhile_cons, ha, if_true] at h ⊢
      simp only [List.cons_append, List.dropWhile_cons, ha, if_true]
      exact ih h
    · simp only [List.dropWhile_cons, ha, if_false] at h ⊢
      simp [List.dropWhile_cons, ha]

theorem toLowerAscii_ws (c : Char) (h : isWs c = true) : toLowerAscii c = c := by
  unfold isWs at h
  unfold toLowerAscii
  rw [if_neg]
  intro hc
  rcases Bool.or_eq_true_iff.mp h with h' | h'
  · rcases Bool.or_eq_true_iff.mp h' with h'' | h''
    · rcases Bool.or_eq_true_iff.mp h'' with h3 | h3
      · rcases Bool.or_eq_true_iff.mp h3 with h4 | h4
        · rcases Bool.or_eq_true_iff.mp h4 with h5 | h5 <;>
            (simp only [decide_eq_true_eq] at h5; subst h5; revert hc; decide)
        · simp only [decide_eq_true_eq] at h4; subst h4; revert hc; decide
      · simp only [decide_eq_true_eq] at h3; subst h3; revert hc; decide
    · simp only [decide_eq_true_eq] at h''; subst h''; revert hc; decide
  · simp only [decide_eq_true_eq] at h'; subst h'; revert hc; decide

theorem ciPref_append (tok x u : List Char) (h : ciPref tok x = true) :
    ciPref tok (x ++ u) = true := by
  induction tok generalizing x with
  | nil => rfl
  | cons p ps ih =>
    cases x with
    | nil => exact absurd h (by simp [ciPref])
    | cons c cs =>
      simp only [ciPref, Bool.and_eq_true] at h
      simp only [List.cons_append, ciPref, Bool.and_eq_true]
      exact ⟨h.1, ih cs h.2⟩

/-- The pattern `\s*-\s*TOK` (case-insensitively) matches at the start of
`t`: after the leading whitespace comes a hyphen, then optional
whitespace, then the token. -/
def matchHT (tok : List Char) (t : List Char) : Bool :=
  match t.dropWhile isWs with
  | [] => false
  | c :: r => c = '-' && ciPref tok (r.dropWhile isWs)

/-- The pattern `\s*-\s*TOK` occurs at some position of `t`. -/
def strHT (tok : List Char) : List Char → Bool
  | [] => false
  | c :: cs => matchHT tok (c :: cs) || strHT tok cs

theorem matchHT_ws_cons (tok : List Char) (a : Char) (z : List Char)
    (h : isWs a = true) : matchHT tok (a :: z) = matchHT tok z := by
  unfold matchHT
  rw [List.dropWhile_cons, if_pos h]

theorem strHT_of_matchHT (tok t : List Char) (h : matchHT tok t = true) :
    strHT tok t = true := by
  cases t with
  | nil => exact absurd h (by simp [matchHT])
  | cons c cs => simp [strHT, h]

theorem matchHT_append (tok t u : List Char) (htok : tok ≠ [])
    (h : matchHT tok t = true) : matchHT tok (t ++ u) = true := by
  unfold matchHT at h ⊢
  cases ht : t.dropWhile isWs with
  | nil => rw [ht] at h; exact absurd h (by simp)
  | cons c r =>
    rw [ht] at h
    simp only [Bool.and_eq_true, decide_eq_true_eq] at h
    obtain ⟨hc, hci⟩ := h
    rw [dropWhile_append_of_ne_nil isWs t u (by rw [ht]; simp), ht]
    simp only [List.cons_append, Bool.and_eq_true, decide_eq_true_eq]
    refine ⟨hc, ?_⟩
    cases hr : r.dropWhile isWs with
    | nil =>
      rw [hr] at hci
      cases tok with
      | nil => exact absurd rfl htok
      | cons p ps => exact absurd hci (by simp [ciPref])
    | cons e es =>
      rw [dropWhile_append_of_ne_nil isWs r u (by rw [hr]; simp), hr]
      rw [hr] at hci
      exact ciPref_append tok (e :: es) u hci

theorem strHT_append (tok t u : List Char) (htok : tok ≠ [])
    (h : strHT tok t = true) : strHT tok (t ++ u) = true := by
  induction t with
  | nil => exact absurd h (by simp [strHT])
  | cons c cs ih =>
    simp only [strHT, Bool.or_eq_true] at h
    rcases h with h | h
    · simp only [List.cons_append, strHT, Bool.or_eq_true]
      exact Or.inl (matchHT_append tok (c :: cs) u htok h)
    · simp only [List.cons_append, strHT, Bool.or_eq_true]
      exact Or.inr (ih h)

theorem hyphenMatch_none_of_matchHT_false (tok t : List Char)
    (h : matchHT tok t = false) : hyphenMatch tok t = none := by
  unfold matchHT at h
  unfold hyphenMatch
  cases ht : t.dropWhile isWs with
  | nil => rfl
  | cons c r =>
    rw [ht] at h
    dsimp only at h ⊢
    by_cases hc : c = '-'
    · rw [if_pos hc]
      have hci : ciPref tok (r.dropWhile isWs) = false := by
        subst hc
        simpa using h
      rw [if_neg (by simp [hci])]
    · rw [if_neg hc]

theorem matchHT_of_hyphenMatch_some (tok t rem : List Char)
    (h : hyphenMatch tok t = some rem) : matchHT tok t = true := by
  by_cases hm : matchHT tok t = true
  · exact hm
  · rw [hyphenMatch_none_of_matchHT_false tok t (by
      cases hb : matchHT tok t
      · rfl
      · exact absurd hb hm)] at h
    exact absurd h (by simp)

theorem nl_dropWhile_ne (l : List Char) (h : '\n' ∉ l) :
    l.dropWhile (fun x => x ≠ '\n') = [] := by
  rw [List.dropWhile_eq_nil_iff]
  intro x hx
  simp only [ne_eq, decide_eq_true_eq]
  intro he
  exact h (he ▸ hx)

theorem hyphenMatch_some_nil (tok t rem : List Char) (hn : '\n' ∉ t)
    (h : hyphenMatch tok t = some rem) : rem = [] := by
  unfold hyphenMatch at h
  cases ht : t.dropWhile isWs with
  | nil => rw [ht] at h; exact absurd h (by simp)
  | cons c r =>
    rw [ht] at h
    dsimp only at h
    have hnr : '\n' ∉ c :: r := by
      intro hx
      exact hn ((List.dropWhile_sublist isWs).subset (ht ▸ hx))
    by_cases hc : c = '-'
    · rw [if_pos hc] at h
      by_cases hci : ciPref tok (r.dropWhile isWs) = true
      · rw [if_pos hci] at h
        have hrest : ((r.dropWhile isWs).drop tok.length).dropWhile (fun x => x ≠ '\n')
            = [] := by
          apply nl_dropWhile_ne
          intro hx
          exact hnr (List.mem_cons_of_mem c
            ((List.dropWhile_sublist isWs).subset (List.drop_subset _ _ hx)))
        rw [hrest] at h
        simp only [if_pos rfl] at h
        exact (Option.some.inj h).symm
      · rw [if_neg hci] at h
        exact absurd h (by simp)
    · rw [if_neg hc] at h
      exact absurd h (by simp)

theorem hyphenMatch_some_of_matchHT (tok t : List Char) (hn : '\n' ∉ t)
    (h : matchHT tok t = true) : hyphenMatch tok t = some [] := by
  unfold matchHT at h
  unfold hyphenMatch
  cases ht : t.dropWhile isWs with
  | nil => rw [ht] at h; exact absurd h (by simp)
  | cons c r =>
    rw [ht] at h
    dsimp only
    simp only [Bool.and_eq_true, decide_eq_true_eq] at h
    obtain ⟨hc, hci⟩ := h
    rw [if_pos hc, if_pos hci]
    have hnr : '\n' ∉ c :: r := by
      intro hx
      exact hn ((List.dropWhile_sublist isWs).subset (ht ▸ hx))
    have hrest : ((r.dropWhile isWs).drop tok.length).dropWhile (fun x => x ≠ '\n')
        = [] := by
      apply nl_dropWhile_ne
      intro hx
      exact hnr (List.mem_cons_of_mem c
        ((List.dropWhile_sublist isWs).subset (List.drop_subset _ _ hx)))
    rw [hrest]
    simp

theorem subTok_eq_self (tok x : List Char) (h : strHT tok x = false) :
    subTok tok x = x := by
  induction x with
  | nil => rfl
  | cons c cs ih =>
    simp only [strHT, Bool.or_eq_false_iff] at h
    unfold subTok
    rw [hyphenMatch_none_of_matchHT_false tok (c :: cs) h.1]
    rw [ih h.2]

theorem subTok_isPre (tok s : List Char) (hn : '\n' ∉ s) :
    ∃ u, subTok tok s ++ u = s := by
  induction s with
  | nil => exact ⟨[], rfl⟩
  | cons c cs ih =>
    unfold subTok
    cases hm : hyphenMatch tok (c :: cs) with
    | some rem =>
      rw [hyphenMatch_some_nil tok (c :: cs) rem hn hm]
      exact ⟨c :: cs, rfl⟩
    | none =>
      obtain ⟨u, hu⟩ := ih (fun hx => hn (List.mem_cons_of_mem c hx))
      exact ⟨u, by simp [hu]⟩

theorem nl_not_mem_subTok (tok s : List Char) (hn : '\n' ∉ s) :
    '\n' ∉ subTok tok s := by
  obtain ⟨u, hu⟩ := subTok_isPre tok s hn
  intro hx
  exact hn (hu ▸ List.mem_append_left u hx)

theorem strHT_subTok (tok s : List Char) (hn : '\n' ∉ s) (htok : tok ≠ []) :
    strHT tok (subTok tok s) = false := by
  induction s with
  | nil => rfl
  | cons c cs ih =>
    unfold subTok
    cases hm : hyphenMatch tok (c :: cs) with
    | some rem =>
      rw [hyphenMatch_some_nil tok (c :: cs) rem hn hm]
      rfl
    | none =>
      have hncs : '\n' ∉ cs := fun hx => hn (List.mem_cons_of_mem c hx)
      have htail := ih hncs
      show (matchHT tok (c :: subTok tok cs) || strHT tok (subTok tok cs)) = false
      rw [htail]
      simp only [Bool.or_false]
      cases hmt : matchHT tok (c :: subTok tok cs) with
      | false => rfl
      | true =>
        exfalso
        obtain ⟨u, hu⟩ := subTok_isPre tok cs hncs
        have : matchHT tok ((c :: subTok tok cs) ++ u) = true :=
          matchHT_append tok (c :: subTok tok cs) u htok hmt
        rw [show (c :: subTok tok cs) ++ u = c :: cs by simp [hu]] at this
        rw [hyphenMatch_some_of_matchHT tok (c :: cs) hn this] at hm
        exact absurd hm (by simp)

theorem strHT_subTok_other (tok1 tok2 s : List Char) (hn : '\n' ∉ s)
    (htok : tok1 ≠ []) (h : strHT tok1 s = false) :
    strHT tok1 (subTok tok2 s) = false := by
  obtain ⟨u, hu⟩ := subTok_isPre tok2 s hn
  cases hb : strHT tok1 (subTok tok2 s) with
  | false => rfl
  | true =>
    exfalso
    have := strHT_append tok1 (subTok tok2 s) u htok hb
    rw [hu] at this
    rw [this] at h
    exact absurd h (by simp)

theorem pySplitGo_words (t : List Char) : ∀ acc : List Char,
    (∀ x ∈ acc, isWs x = false) →
    ∀ w ∈ pySplitGo acc t, w ≠ [] ∧ ∀ x ∈ w, isWs x = false := by
  induction t with
  | nil =>
    intro acc hacc w hw
    unfold pySplitGo at hw
    by_cases ha : acc = []
    · simp [ha] at hw
    · rw [if_neg ha] at hw
      simp only [List.mem_singleton] at hw
      subst hw
      exact ⟨by simpa using ha, fun x hx => hacc x (by simpa using hx)⟩
  | cons c cs ih =>
    intro acc hacc w hw
    unfold pySplitGo at hw
    by_cases hc : isWs c
    · rw [if_pos hc] at hw
      by_cases ha : acc = []
      · rw [if_pos ha] at hw
        exact ih [] (by simp) w hw
      · rw [if_neg ha] at hw
        rcases List.mem_cons.mp hw with hw | hw
        · subst hw
          exact ⟨by simpa using ha, fun x hx => hacc x (by simpa using hx)⟩
        · exact ih [] (by simp) w hw
    · rw [if_neg hc] at hw
      refine ih (c :: acc) ?_ w hw
      intro x hx
      rcases List.mem_cons.mp hx with hx | hx
      · subst hx
        simpa using hc
      · exact hacc x hx

theorem pySplit_words (t : List Char) :
    ∀ w ∈ pySplit t, w ≠ [] ∧ ∀ x ∈ w, isWs x = false :=
  pySplitGo_words t [] (by simp)

theorem wsCollapse_ws (c : Char) (cs : List Char) (h : isWs c = true) :
    wsCollapse (c :: cs) = wsCollapse cs := by
  unfold wsCollapse
  rw [pySplit_ws c cs h]

theorem wsCollapse_single (c : Char) (h : isWs c = false) :
    wsCollapse [c] = [c] := by
  unfold wsCollapse
  rw [pySplit_word c [] (by simp [h])]
  simp [intercalate_space, pySplit_nil]

theorem wsCollapse_cons_cons (c d : Char) (ds : List Char)
    (hc : isWs c = false) (hd : isWs d = false) :
    wsCollapse (c :: d :: ds) = c :: wsCollapse (d :: ds) := by
  unfold wsCollapse
  rw [pySplit_word c (d :: ds) (by simp [hc]), pySplit_word d ds (by simp [hd])]
  rw [List.takeWhile_cons, if_pos (by simp [hd]), List.dropWhile_cons,
    if_pos (by simp [hd])]
  rw [intercalate_space, intercalate_space]
  simp

theorem wsCollapse_word_ws (c d : Char) (ds : List Char)
    (hc : isWs c = false) (hd : isWs d = true) :
    wsCollapse (c :: d :: ds)
      = c :: (if pySplit ds = [] then [] else ' ' :: wsCollapse ds) := by
  unfold wsCollapse
  rw [pySplit_word c (d :: ds) (by simp [hc])]
  rw [List.takeWhile_cons, if_neg (by simp [hd]), List.dropWhile_cons,
    if_neg (by simp [hd])]
  rw [pySplit_ws d ds hd]
  rw [intercalate_space]
  simp

theorem pySplit_intercalate (words : List (List Char))
    (h : ∀ w ∈ words, w ≠ [] ∧ ∀ x ∈ w, isWs x = false) :
    pySplit (List.intercalate [' '] words) = words := by
  induction words with
  | nil => rfl
  | cons w rest ih =>
    obtain ⟨hw, hwx⟩ := h w (by simp)
    rw [intercalate_space]
    cases w with
    | nil => exact absurd rfl hw
    | cons c w' =>
      have hc : isWs c = false := hwx c (by simp)
      rw [List.cons_append, pySplit_word c _ (by simp [hc])]
      have hw' : ∀ x ∈ w', (fun d => ¬ isWs d : Char → Bool) x = true := by
        intro x hx
        simp [hwx x (by simp [hx])]
      rw [takeWhile_append_all _ w' _ hw', dropWhile_append_all _ w' _ hw']
      by_cases hrest : rest = []
      · subst hrest
        simp [pySplit_nil]
      · rw [if_neg hrest]
        rw [List.takeWhile_cons, if_neg (by simp [isWs]), List.dropWhile_cons,
          if_neg (by simp [isWs])]
        rw [show pySplit (' ' :: List.intercalate [' '] rest)
            = pySplit (List.intercalate [' '] rest) from
          pySplit_ws ' ' _ (by simp [isWs])]
        rw [ih (fun w2 hw2 => h w2 (by simp [hw2]))]
        simp

theorem wsCollapse_head (t : List Char) :
    wsCollapse t = [] ∨ ∃ c cs, wsCollapse t = c :: cs ∧ isWs c = false := by
  unfold wsCollapse
  cases hp : pySplit t with
  | nil => exact Or.inl rfl
  | cons w rest =>
    obtain ⟨hw, hwx⟩ := pySplit_words t w (by rw [hp]; simp)
    cases w with
    | nil => exact absurd rfl hw
    | cons c w' =>
      rw [intercalate_space]
      exact Or.inr ⟨c, _, rfl, hwx c (by simp)⟩

theorem dropWhile_wsCollapse (t : List Char) :
    (wsCollapse t).dropWhile isWs = wsCollapse t := by
  rcases wsCollapse_head t with h | ⟨c, cs, h, hc⟩
  · rw [h]; rfl
  · rw [h, List.dropWhile_cons, if_neg (by simp [hc])]

theorem intercalate_ne_nil (w : List Char) (rest : List (List Char))
    (hw : w ≠ []) : List.intercalate [' '] (w :: rest) ≠ [] := by
  rw [intercalate_space]
  intro h
  rcases List.append_eq_nil.mp h with ⟨h1, _⟩
  exact hw h1

theorem intercalate_last (words : List (List Char))
    (h : ∀ w ∈ words, w ≠ [] ∧ ∀ x ∈ w, isWs x = false) :
    words = [] ∨
      ∃ a, (List.intercalate [' '] words).getLast? = some a ∧ isWs a = false := by
  induction words with
  | nil => exact Or.inl rfl
  | cons w rest ih =>
    right
    obtain ⟨hw, hwx⟩ := h w (by simp)
    rcases ih (fun w' hw' => h w' (by simp [hw'])) with hrest | ⟨a, ha, hwa⟩
    · subst hrest
      rw [intercalate_space, if_pos rfl, List.append_nil]
      exact ⟨w.getLast hw, List.getLast?_eq_getLast w hw, hwx _ (List.getLast_mem hw)⟩
    · have hrest2 : rest ≠ [] := by
        intro hr
        subst hr
        simp [List.intercalate] at ha
      rw [intercalate_space, if_neg hrest2]
      refine ⟨a, ?_, hwa⟩
      rw [show (' ' :: List.intercalate [' '] rest)
        = [' '] ++ List.intercalate [' '] rest from rfl]
      rw [List.getLast?_append, List.getLast?_append, ha]
      rfl

theorem pyStrip_wsCollapse (t : List Char) : pyStrip (wsCollapse t) = wsCollapse t := by
  unfold pyStrip
  rw [dropWhile_wsCollapse]
  rcases intercalate_last (pySplit t) (pySplit_words t) with h | ⟨a, ha, hwa⟩
  · have hnil : wsCollapse t = [] := by
      unfold wsCollapse
      rw [h]
      rfl
    rw [hnil]
    rfl
  · have hrev : (wsCollapse t).reverse.head? = some a := by
      rw [List.head?_reverse]
      exact ha
    cases hr : (wsCollapse t).reverse with
    | nil =>
      simp only [List.dropWhile_nil, List.reverse_nil]
      exact (List.reverse_eq_nil_iff.mp hr).symm
    | cons b bs =>
      have hb : b = a := by
        rw [hr] at hrev
        simpa using hrev
      rw [List.dropWhile_cons, if_neg (by simp [hb, hwa])]
      rw [← hr, List.reverse_reverse]

theorem matchHT_cons (tok : List Char) (c : Char) (z : List Char)
    (hc : isWs c = false) :
    matchHT tok (c :: z) = (decide (c = '-') && ciPref tok (z.dropWhile isWs)) := by
  unfold matchHT
  rw [List.dropWhile_cons, if_neg (by simp [hc])]

/-- Transfer of a case-insensitive token test through whitespace
collapsing: if the collapsed string starts (after the leading whitespace,
of which it has none) with the token, then so does the original string
after dropping its leading whitespace.  The token is whitespace-free. -/
theorem ciPref_wsCollapse : ∀ (n : ℕ) (t : List Char), t.length ≤ n →
    ∀ tok : List Char, (∀ x ∈ tok, isWs x = false) →
    ciPref tok (wsCollapse t) = true → ciPref tok (t.dropWhile isWs) = true := by
  intro n
  induction n with
  | zero =>
    intro t ht tok htok hci
    have hnil : t = [] := List.length_eq_zero.mp (Nat.le_zero.mp ht)
    subst hnil
    exact hci
  | succ n ih =>
    intro t ht tok htok hci
    cases t with
    | nil => exact hci
    | cons c cs =>
      by_cases hc : isWs c
      · rw [wsCollapse_ws c cs hc] at hci
        rw [List.dropWhile_cons, if_pos hc]
        exact ih cs (by simp only [List.length_cons] at ht; omega) tok htok hci
      · rw [List.dropWhile_cons, if_neg hc]
        cases tok with
        | nil => rfl
        | cons p ps =>
          have hps : ∀ x ∈ ps, isWs x = false := fun x hx => htok x (by simp [hx])
          cases cs with
          | nil =>
            rw [wsCollapse_single c (by simpa using hc)] at hci
            exact hci
          | cons d ds =>
            by_cases hd : isWs d
            · rw [wsCollapse_word_ws c d ds (by simpa using hc) hd] at hci
              simp only [ciPref, Bool.and_eq_true] at hci
              obtain ⟨hcp, hX⟩ := hci
              simp only [ciPref, Bool.and_eq_true]
              refine ⟨hcp, ?_⟩
              cases ps with
              | nil => rfl
              | cons p2 ps2 =>
                exfalso
                have hp2 : isWs p2 = false := hps p2 (by simp)
                by_cases hrest : pySplit ds = []
                · rw [if_pos hrest] at hX
                  exact absurd hX (by simp [ciPref])
                · rw [if_neg hrest] at hX
                  simp only [ciPref, Bool.and_eq_true, decide_eq_true_eq] at hX
                  have hsp : toLowerAscii ' ' = ' ' := by decide
                  rw [hsp] at hX
                  rw [← hX.1] at hp2
                  exact absurd hp2 (by decide)
            · rw [wsCollapse_cons_cons c d ds (by simpa using hc) (by simpa using hd)] at hci
              simp only [ciPref, Bool.and_eq_true] at hci ⊢
              obtain ⟨hcp, hX⟩ := hci
              refine ⟨hcp, ?_⟩
              have hr := ih (d :: ds) (by simp only [List.length_cons] at ht ⊢; omega)
                ps hps hX
              rwa [List.dropWhile_cons, if_neg hd] at hr

/-- Transfer of pattern non-occurrence through whitespace collapsing: if
`\s*-\s*TOK` occurs nowhere in `t`, it occurs nowhere in the collapsed
string either. -/
theorem strHT_wsCollapse : ∀ (n : ℕ) (t : List Char), t.length ≤ n →
    ∀ tok : List Char, tok ≠ [] → (∀ x ∈ tok, isWs x = false) →
    strHT tok t = false → strHT tok (wsCollapse t) = false := by
  intro n
  induction n with
  | zero =>
    intro t ht tok _ _ _
    have hnil : t = [] := List.length_eq_zero.mp (Nat.le_zero.mp ht)
    subst hnil
    rfl
  | succ n ih =>
    intro t ht tok htne htok h
    cases t with
    | nil => rfl
    | cons c cs =>
      have hmc : matchHT tok (c :: cs) = false := by
        simp only [strHT, Bool.or_eq_false_iff] at h
        exact h.1
      have hcs : strHT tok cs = false := by
        simp only [strHT, Bool.or_eq_false_iff] at h
        exact h.2
      by_cases hc : isWs c
      · rw [wsCollapse_ws c cs hc]
        exact ih cs (by simp only [List.length_cons] at ht; omega) tok htne htok hcs
      · cases cs with
        | nil =>
          rw [wsCollapse_single c (by simpa using hc)]
          exact h
        | cons d ds =>
          by_cases hd : isWs d
          · rw [wsCollapse_word_ws c d ds (by simpa using hc) hd]
            have hds : strHT tok ds = false := by
              simp only [strHT, Bool.or_eq_false_iff] at hcs
              exact hcs.2
            have hXfalse : strHT tok
                (if pySplit ds = [] then [] else ' ' :: wsCollapse ds) = false := by
              by_cases hrest : pySplit ds = []
              · rw [if_pos hrest]
                rfl
              · rw [if_neg hrest]
                have hZ : strHT tok (wsCollapse ds) = false :=
                  ih ds (by simp only [List.length_cons] at ht; omega) tok htne htok hds
                show (matchHT tok (' ' :: wsCollapse ds) || strHT tok (wsCollapse ds)) = false
                rw [hZ, matchHT_ws_cons tok ' ' _ (by decide)]
                cases hmz : matchHT tok (wsCollapse ds) with
                | false => rfl
                | true => exact absurd (strHT_of_matchHT tok _ hmz) (by simp [hZ])
            have hcX : matchHT tok
                (c :: (if pySplit ds = [] then [] else ' ' :: wsCollapse ds)) = false := by
              rw [matchHT_cons tok c _ (by simpa using hc)]
              cases hdash : decide (c = '-') with
              | false => rfl
              | true =>
                simp only [Bool.true_and]
                cases hcip : ciPref tok
                    ((if pySplit ds = [] then [] else ' ' :: wsCollapse ds).dropWhile isWs) with
                | false => rfl
                | true =>
                  exfalso
                  have hciZ : ciPref tok (wsCollapse ds) = true := by
                    by_cases hrest : pySplit ds = []
                    · rw [if_pos hrest] at hcip
                      cases tok with
                      | nil => exact absurd rfl htne
                      | cons p ps => exact absurd hcip (by simp [ciPref])
                    · rw [if_neg hrest] at hcip
                      rwa [List.dropWhile_cons, if_pos (by decide),
                        dropWhile_wsCollapse] at hcip
                  have hciD : ciPref tok (ds.dropWhile isWs) = true :=
                    ciPref_wsCollapse ds.length ds (Nat.le_refl _) tok htok hciZ
                  have : matchHT tok (c :: d :: ds) = true := by
                    rw [matchHT_cons tok c _ (by simpa using hc), hdash,
                      List.dropWhile_cons, if_pos hd]
                    simpa using hciD
                  rw [this] at hmc
                  exact absurd hmc (by simp)
            show (matchHT tok _ || strHT tok _) = false
            rw [hcX, hXfalse]
            rfl
          · rw [wsCollapse_cons_cons c d ds (by simpa using hc) (by simpa using hd)]
            have hZ : strHT tok (wsCollapse (d :: ds)) = false :=
              ih (d :: ds) (by simp only [List.length_cons] at ht ⊢; omega)
                tok htne htok hcs
            have hcX : matchHT tok (c :: wsCollapse (d :: ds)) = false := by
              rw [matchHT_cons tok c _ (by simpa using hc)]
              cases hdash : decide (c = '-') with
              | false => rfl
              | true =>
                simp only [Bool.true_and]
                cases hcip : ciPref tok ((wsCollapse (d :: ds)).dropWhile isWs) with
                | false => rfl
                | true =>
                  exfalso
                  rw [dropWhile_wsCollapse] at hcip
                  have hciD : ciPref tok ((d :: ds).dropWhile isWs) = true :=
                    ciPref_wsCollapse (d :: ds).length (d :: ds) (Nat.le_refl _)
                      tok htok hcip
                  have : matchHT tok (c :: d :: ds) = true := by
                    rw [matchHT_cons tok c _ (by simpa using hc), hdash]
                    simpa using hciD
                  rw [this] at hmc
                  exact absurd hmc (by simp)
            show (matchHT tok _ || strHT tok _) = false
            rw [hcX, hZ]
            rfl

theorem wsCollapse_idem (t : List Char) :
    wsCollapse (wsCollapse t) = wsCollapse t := by
  show List.intercalate [' '] (pySplit (List.intercalate [' '] (pySplit t))) = _
  rw [pySplit_intercalate (pySplit t) (pySplit_words t)]
  rfl

/-- A string in which none of the three hyphen-token patterns occurs, and
which is a fixed point of collapsing and stripping, is a fixed point of
`clean_fund_name`. -/
theorem clean_fund_name_fixed (x : List Char)
    (hd : strHT "direct".toList x = false)
    (hr : strHT "regular".toList x = false)
    (hg : strHT "growth".toList x = false)
    (hcoll : wsCollapse x = x) (hstrip : pyStrip x = x) :
    clean_fund_name x = x := by
  show pyStrip (wsCollapse (subTok "growth".toList (subTok "growth".toList
    (subTok "regular".toList (subTok "regular".toList
      (subTok "direct".toList (subTok "direct".toList x))))))) = x
  rw [subTok_eq_self "direct".toList x hd, subTok_eq_self "direct".toList x hd,
    subTok_eq_self "regular".toList x hr, subTok_eq_self "regular".toList x hr,
    subTok_eq_self "growth".toList x hg, subTok_eq_self "growth".toList x hg,
    hcoll, hstrip]

/-- C9, counterexample: on an input containing a newline the normalization
is NOT idempotent.  Python's `$` refuses to match before an interior
newline, so the first pass only strips the second `- Direct` clause; the
whitespace collapse then turns the newline into a space, and the second
pass strips again. -/
theorem c9_idempotence_counterexample :
    clean_fund_name (("A - Direct\nB - Direct C").toList) = ("A - Direct B").toList ∧
    clean_fund_name (clean_fund_name (("A - Direct\nB - Direct C").toList))
      = ("A").toList ∧
    clean_fund_name (clean_fund_name (("A - Direct\nB - Direct C").toList))
      ≠ clean_fund_name (("A - Direct\nB - Direct C").toList) := by
  refine ⟨by decide, by decide, by decide⟩

/-- C9 (amended): on every input without a newline character — which
includes every fund name the parser can pass in, since the feed is split
on newlines — `clean_fund_name` is idempotent. -/
theorem c9_clean_fund_name_idempotent (s : List Char) (hn : '\n' ∉ s) :
    clean_fund_name (clean_fund_name s) = clean_fund_name s := by
  have hdne : ("direct".toList : List Char) ≠ [] := by decide
  have hrne : ("regular".toList : List Char) ≠ [] := by decide
  have hgne : ("growth".toList : List Char) ≠ [] := by decide
  have hdws : ∀ x ∈ ("direct".toList : List Char), isWs x = false := by decide
  have hrws : ∀ x ∈ ("regular".toList : List Char), isWs x = false := by decide
  have hgws : ∀ x ∈ ("growth".toList : List Char), isWs x = false := by decide
  set t1 := subTok "direct".toList s with ht1
  set t2 := subTok "direct".toList t1 with ht2
  set t3 := subTok "regular".toList t2 with ht3
  set t4 := subTok "regular".toList t3 with ht4
  set t5 := subTok "growth".toList t4 with ht5
  set t6 := subTok "growth".toList t5 with ht6
  have hn1 : '\n' ∉ t1 := nl_not_mem_subTok _ s hn
  have hn2 : '\n' ∉ t2 := nl_not_mem_subTok _ t1 hn1
  have hn3 : '\n' ∉ t3 := nl_not_mem_subTok _ t2 hn2
  have hn4 : '\n' ∉ t4 := nl_not_mem_subTok _ t3 hn3
  have hn5 : '\n' ∉ t5 := nl_not_mem_subTok _ t4 hn4
  have hA1 : strHT "direct".toList t2 = false := strHT_subTok _ t1 hn1 hdne
  have hA2 : strHT "direct".toList t3 = false :=
    strHT_subTok_other _ _ t2 hn2 hdne hA1
  have hA3 : strHT "direct".toList t4 = false :=
    strHT_subTok_other _ _ t3 hn3 hdne hA2
  have hA4 : strHT "direct".toList t5 = false :=
    strHT_subTok_other _ _ t4 hn4 hdne hA3
  have hA5 : strHT "direct".toList t6 = false :=
    strHT_subTok_other _ _ t5 hn5 hdne hA4
  have hB1 : strHT "regular".toList t4 = false := strHT_subTok _ t3 hn3 hrne
  have hB2 : strHT "regular".toList t5 = false :=
    strHT_subTok_other _ _ t4 hn4 hrne hB1
  have hB3 : strHT "regular".toList t6 = false :=
    strHT_subTok_other _ _ t5 hn5 hrne hB2
  have hC1 : strHT "growth".toList t6 = false := strHT_subTok _ t5 hn5 hgne
  have hKd : strHT "direct".toList (wsCollapse t6) = false :=
    strHT_wsCollapse t6.length t6 (Nat.le_refl _) _ hdne hdws hA5
  have hKr : strHT "regular".toList (wsCollapse t6) = false :=
    strHT_wsCollapse t6.length t6 (Nat.le_refl _) _ hrne hrws hB3
  have hKg : strHT "growth".toList (wsCollapse t6) = false :=
    strHT_wsCollapse t6.length t6 (Nat.le_refl _) _ hgne hgws hC1
  have hclean : clean_fund_name s = pyStrip (wsCollapse t6) := rfl
  rw [hclean, pyStrip_wsCollapse t6]
  exact clean_fund_name_fixed (wsCollapse t6) hKd hKr hKg
    (wsCollapse_idem t6) (pyStrip_wsCollapse t6)

/-- Witness for the amended C9 on a newline-free fund name. -/
theorem c9_clean_fund_name_idempotent_witness :
    clean_fund_name (clean_fund_name ("Alpha Fund - Direct Growth".toList))
      = clean_fund_name ("Alpha Fund - Direct Growth".toList) :=
  c9_clean_fund_name_idempotent ("Alpha Fund - Direct Growth".toList) (by decide)

end Saarthi
